import Mathlib

/-!
Verification development for the NetBuff buffer/pool library.

Shallow embedding of the C++ containers, translated from the source headers:
* `SerializeBuffer`  from include/NetBuff/SerializeBuffer.hpp
* `TaggedPtr`        from include/NetBuff/TaggedPtr.hpp (`TaggedPtrAligned` /
  the pool-internal `TaggedNodePtr`, which share the same bit layout)
* `SpscRingByteBuffer` from include/NetBuff/SpscRingByteBuffer.hpp
* `RingQueue`        from include/NetBuff/RingQueue.hpp
* `LockfreeObjectPool` (no-destroy-on-return mode) from
  include/NetBuff/LockfreeObjectPool.hpp, with the sequential (single-thread)
  semantics of its atomic operations: every compare-exchange succeeds on the
  first attempt, which is exact for single-threaded executions.

Bytes are modelled as `Nat` values (the functions only ever store values
below 256); machine `size_t` arithmetic is modelled modulo `2 ^ 64` at the
places where the C++ computation can wrap.  The host is little-endian (the
big-endian byteswap branches of the source are compiled out), so arithmetic
values are serialized as little-endian byte sequences of their width.
-/

set_option maxRecDepth 16000

/-- Little-endian byte encoding: `natToLE k v` is the `k`-byte little-endian
representation of `v % 2 ^ (8 * k)`, exactly the object representation a
little-endian host uses for a `k`-byte unsigned integer. -/
def natToLE : Nat → Nat → List Nat
  | 0, _ => []
  | k + 1, v => v % 256 :: natToLE k (v / 256)

/-- Little-endian byte decoding, the inverse of `natToLE` on its range. -/
def natFromLE : List Nat → Nat
  | [] => 0
  | b :: bs => b + 256 * natFromLE bs

/-- `memcpy` of `data` into `buf` at offset `pos`: the bytes at positions
`[pos, pos + data.length)` are replaced, everything else is unchanged. -/
def spliceAt (buf : List Nat) (pos : Nat) (data : List Nat) : List Nat :=
  buf.take pos ++ data ++ buf.drop (pos + data.length)

/-- Modulus of the 64-bit `size_t` arithmetic of the source. -/
def sizeTMod : Nat := 2 ^ 64

/-- Base-2 logarithm with explicit fuel (structural recursion, so that the
kernel can evaluate it): `log2Fuel f n = Nat.log2 n` whenever `n ≤ f`. -/
def log2Fuel : Nat → Nat → Nat
  | 0, _ => 0
  | fuel + 1, n => if 2 ≤ n then log2Fuel fuel (n / 2) + 1 else 0

/-- IEEE-754 binary64 bit pattern of the positive dyadic rational
`num / 2 ^ den` (assumed to be in the normal range and exactly
representable, as 3.125 = 25 / 2 ^ 3 is).  This models the object
representation that the host stores for a C++ `double`, which
`SerializeBuffer::try_write<double>` copies byte for byte. -/
def float64BitsOfDyadic (num den : Nat) : Nat :=
  if num = 0 then 0
  else
    let e : Nat := log2Fuel num num
    let mant : Nat := num * 2 ^ 52 / 2 ^ e % 2 ^ 52
    let exp : Int := 1023 + (e : Int) - (den : Int)
    exp.toNat % 2 ^ 11 * 2 ^ 52 + mant

/-- State of `nb::SerializeBuffer` (SerializeBuffer.hpp): a linear byte
region with read/write cursors and the sticky (mutable) fail flag. -/
structure SerializeBuffer where
  buffer : List Nat
  capacity : Nat
  pos_read : Nat
  pos_write : Nat
  fail : Bool
deriving DecidableEq

namespace SerializeBuffer

/-- `used_space()`: `_pos_write - _pos_read`. -/
def used_space (sb : SerializeBuffer) : Nat := sb.pos_write - sb.pos_read

/-- `available_space()`: `_capacity - _pos_write`. -/
def available_space (sb : SerializeBuffer) : Nat := sb.capacity - sb.pos_write

/-- `empty()`: `_pos_read == _pos_write`. -/
def empty (sb : SerializeBuffer) : Bool := sb.pos_read == sb.pos_write

/-- `full()`: `available_space() == 0`. -/
def full (sb : SerializeBuffer) : Bool := sb.available_space == 0

/-- `try_write(const void*, std::size_t)`: gate on `available_space`, set
the fail flag and bail on shortage, otherwise `memcpy` at `_pos_write` and
advance the write cursor. -/
def try_write (sb : SerializeBuffer) (data : List Nat) : Bool × SerializeBuffer :=
  if data.length > sb.available_space then (false, { sb with fail := true })
  else
    (true, { sb with
              buffer := spliceAt sb.buffer sb.pos_write data,
              pos_write := sb.pos_write + data.length })

/-- The bytes `memcpy` would read at `_buffer + _pos_read`. -/
def peekWindow (sb : SerializeBuffer) (length : Nat) : List Nat :=
  (sb.buffer.drop sb.pos_read).take length

/-- `try_peek(void*, std::size_t)`: gate on `used_space`; on shortage set
the (mutable) fail flag even though the receiver is const; on success copy
without advancing the read cursor. -/
def try_peek (sb : SerializeBuffer) (length : Nat) :
    Option (List Nat) × SerializeBuffer :=
  if length > sb.used_space then (none, { sb with fail := true })
  else (some (peekWindow sb length), sb)

/-- `try_read(void*, std::size_t)`: `try_peek`, then advance `_pos_read` on
success. -/
def try_read (sb : SerializeBuffer) (length : Nat) :
    Option (List Nat) × SerializeBuffer :=
  match sb.try_peek length with
  | (none, sb') => (none, sb')
  | (some bs, sb') => (some bs, { sb' with pos_read := sb'.pos_read + length })

/-- `try_write<Num>` for a `k`-byte unsigned arithmetic value on the
little-endian host: write the `k` raw bytes of the value. -/
def try_write_num (sb : SerializeBuffer) (k v : Nat) : Bool × SerializeBuffer :=
  sb.try_write (natToLE k v)

/-- `try_read<Num>` for a `k`-byte unsigned arithmetic value. -/
def try_read_num (sb : SerializeBuffer) (k : Nat) : Option Nat × SerializeBuffer :=
  match sb.try_read k with
  | (none, sb') => (none, sb')
  | (some bs, sb') => (some (natFromLE bs), sb')

/-- `try_peek<Num>` for a `k`-byte unsigned arithmetic value. -/
def try_peek_num (sb : SerializeBuffer) (k : Nat) : Option Nat × SerializeBuffer :=
  match sb.try_peek k with
  | (none, sb') => (none, sb')
  | (some bs, sb') => (some (natFromLE bs), sb')

/-- Two's-complement encoding: `try_write<Num>` for a signed `k`-byte value
(the host stores signed integers in two's complement). -/
def try_write_int (sb : SerializeBuffer) (k : Nat) (v : Int) :
    Bool × SerializeBuffer :=
  sb.try_write_num k (v % (2 ^ (8 * k))).toNat

/-- Two's-complement decoding of a `k`-byte unsigned value. -/
def twosOfNat (k u : Nat) : Int :=
  if u < 2 ^ (8 * k - 1) then (u : Int) else (u : Int) - 2 ^ (8 * k)

/-- `try_read<Num>` for a signed `k`-byte value. -/
def try_read_int (sb : SerializeBuffer) (k : Nat) : Option Int × SerializeBuffer :=
  match sb.try_read_num k with
  | (none, sb') => (none, sb')
  | (some u, sb') => (some (twosOfNat k u), sb')

/-- Byte image of a string of code units of width `cs` on the little-endian
host (each code unit stored little-endian, which for `cs = 1` is the
identity). -/
def strPayloadBytes (cs : Nat) (units : List Nat) : List Nat :=
  (units.map (natToLE cs)).flatten

/-- `try_write<Str, StringLengthType>` (SerializeBuffer.hpp:225-257) with a
`pf`-byte length prefix and code units of `cs` bytes.  `str_bytes` is the
`size_t` product `str.length() * sizeof(value_type)`, i.e. reduced modulo
`2 ^ 64`; the length prefix is `static_cast<StringLengthType>(str.length())`,
i.e. the low `8 * pf` bits of the length (`natToLE` truncates). -/
def try_write_str (sb : SerializeBuffer) (pf cs : Nat) (units : List Nat) :
    Bool × SerializeBuffer :=
  let strBytes := units.length * cs % sizeTMod
  if (pf + strBytes) % sizeTMod > sb.available_space then
    (false, { sb with fail := true })
  else
    let sb1 := (sb.try_write (natToLE pf units.length)).2
    let sb2 := (sb1.try_write ((strPayloadBytes cs units).take strBytes)).2
    (true, sb2)

/-- `try_read<Str, StringLengthType>` (SerializeBuffer.hpp:267-311): peek
the `pf`-byte length prefix, check `sizeof(prefix) + payload_bytes` (a
`size_t` computation, modulo `2 ^ 64`) against `used_space()`, then consume
the prefix and read the payload bytes.  The result is the byte sequence of
the string's code units. -/
def try_read_str (sb : SerializeBuffer) (pf cs : Nat) :
    Option (List Nat) × SerializeBuffer :=
  match sb.try_peek_num pf with
  | (none, sb1) => (none, sb1)
  | (some len, sb1) =>
    let payloadBytes := len * cs % sizeTMod
    if (pf + payloadBytes) % sizeTMod > sb1.used_space then
      (none, { sb1 with fail := true })
    else
      let sb2 := { sb1 with pos_read := sb1.pos_read + pf }
      match sb2.try_read payloadBytes with
      | (none, sb3) => (none, sb3)
      | (some bs, sb3) => (some bs, sb3)

/-- `try_read<Char, StringLengthType>` into a NUL-terminated buffer
(SerializeBuffer.hpp:347-368): same gate as the string read, then one
`memcpy` of the payload, a zero terminator (one code unit of `cs` zero
bytes) appended at the destination, and the read cursor advanced past
prefix and payload. -/
def try_read_cstr (sb : SerializeBuffer) (pf cs : Nat) :
    Option (List Nat) × SerializeBuffer :=
  match sb.try_peek_num pf with
  | (none, sb1) => (none, sb1)
  | (some len, sb1) =>
    let payloadBytes := len * cs % sizeTMod
    if (pf + payloadBytes) % sizeTMod > sb1.used_space then
      (none, { sb1 with fail := true })
    else
      let payload := (sb1.buffer.drop (sb1.pos_read + pf)).take payloadBytes
      (some (payload ++ List.replicate cs 0),
       { sb1 with pos_read := sb1.pos_read + pf + payloadBytes })

/-- `clear()`: reset both cursors to 0 and clear the fail flag. -/
def clear (sb : SerializeBuffer) : SerializeBuffer :=
  { sb with pos_read := 0, pos_write := 0, fail := false }

/-- `try_resize(new_capacity)` (SerializeBuffer.hpp:403-424): fail when the
request cannot hold the unread payload or equals the current capacity;
otherwise allocate, compact the unread payload to offset 0 and swap the
buffers.  Fresh (uninitialized) bytes are modelled as 0.  Note that the
fail flag is not touched. -/
def try_resize (sb : SerializeBuffer) (new_capacity : Nat) :
    Bool × SerializeBuffer :=
  let used := sb.used_space
  if new_capacity < used ∨ new_capacity = sb.capacity then (false, sb)
  else
    (true, { buffer := (sb.buffer.drop sb.pos_read).take used ++
                         List.replicate (new_capacity - used) 0,
             capacity := new_capacity, pos_read := 0, pos_write := used,
             fail := sb.fail })

end SerializeBuffer

/-- One public operation of `SerializeBuffer`, used to state the sticky-fail
invariant over arbitrary operation sequences. -/
inductive SbOp where
  | writeBytes (data : List Nat)
  | readBytes (n : Nat)
  | peekBytes (n : Nat)
  | writeNum (k v : Nat)
  | readNum (k : Nat)
  | writeStr (pf cs : Nat) (units : List Nat)
  | readStr (pf cs : Nat)
  | readCStr (pf cs : Nat)
  | resize (n : Nat)
  | clear
deriving DecidableEq

/-- Apply one `SerializeBuffer` operation to the state, discarding the
returned value. -/
def sbStep (sb : SerializeBuffer) : SbOp → SerializeBuffer
  | .writeBytes d => (sb.try_write d).2
  | .readBytes n => (sb.try_read n).2
  | .peekBytes n => (sb.try_peek n).2
  | .writeNum k v => (sb.try_write_num k v).2
  | .readNum k => (sb.try_read_num k).2
  | .writeStr pf cs us => (sb.try_write_str pf cs us).2
  | .readStr pf cs => (sb.try_read_str pf cs).2
  | .readCStr pf cs => (sb.try_read_cstr pf cs).2
  | .resize n => (sb.try_resize n).2
  | .clear => sb.clear

namespace TaggedPtr

/-!
`nb::TaggedPtrAligned<T, Alignment>` (TaggedPtr.hpp) and the pool-internal
`TaggedNodePtr` pack a pointer and a tag into one 64-bit word
`_tagged_addr`.  Parameters of the bit layout:
* `V`  = `NB_VA_BITS` (number of virtual-address bits, default 56),
* `LB` = `LOWER_TAG_BITS` = `countr_zero(Alignment)`, i.e. the alignment
  is `2 ^ LB`.
The word is a `Nat` below `2 ^ 64`; the C++ 64-bit complement `~TAG_MASK`
is `(2 ^ 64 - 1) ^^^ TAG_MASK`.
-/

/-- `UPPER_TAG_BITS = 64 - NB_VA_BITS`. -/
def UPPER_TAG_BITS (V : Nat) : Nat := 64 - V

/-- `UPPER_TAG_MASK = ((uintptr_t(1) << UPPER_TAG_BITS) - 1) << NB_VA_BITS`. -/
def UPPER_TAG_MASK (V : Nat) : Nat := ((1 <<< (64 - V)) - 1) <<< V

/-- `LOWER_TAG_BITS = countr_zero(Alignment)`. -/
def LOWER_TAG_BITS (LB : Nat) : Nat := LB

/-- `LOWER_TAG_MASK = Alignment - 1 = 2 ^ LB - 1`. -/
def LOWER_TAG_MASK (LB : Nat) : Nat := (1 <<< LB) - 1

/-- `TAG_MASK = UPPER_TAG_MASK | LOWER_TAG_MASK`. -/
def TAG_MASK (V LB : Nat) : Nat := UPPER_TAG_MASK V ||| LOWER_TAG_MASK LB

/-- The 64-bit complement `~TAG_MASK` of the source. -/
def NOT_TAG_MASK (V LB : Nat) : Nat := (2 ^ 64 - 1) ^^^ TAG_MASK V LB

/-- `get_ptr()`: `_tagged_addr & ~TAG_MASK`. -/
def get_ptr (V LB w : Nat) : Nat := w &&& NOT_TAG_MASK V LB

/-- `get_tag()`: recompose the high and low tag halves. -/
def get_tag (V LB w : Nat) : Nat :=
  ((w &&& UPPER_TAG_MASK V) >>> (V - LB)) ||| (w &&& LOWER_TAG_MASK LB)

/-- `set_tag(tag_value)`: mask the value into the two tag fields, keeping
the pointer bits. -/
def set_tag (V LB tag_value w : Nat) : Nat :=
  (w &&& NOT_TAG_MASK V LB) |||
    (((tag_value &&& (UPPER_TAG_MASK V >>> (V - LB))) <<< (V - LB)) |||
      (tag_value &&& LOWER_TAG_MASK LB))

/-- `increase_tag()`: `set_tag(get_tag() + 1)`. -/
def increase_tag (V LB w : Nat) : Nat := set_tag V LB (get_tag V LB w + 1) w

/-- Total tag width `UPPER_TAG_BITS + LOWER_TAG_BITS`. -/
def tagWidth (V LB : Nat) : Nat := UPPER_TAG_BITS V + LOWER_TAG_BITS LB

end TaggedPtr

/-- State of `nb::SpscRingByteBuffer` (SpscRingByteBuffer.hpp), under the
sequential semantics of its two atomic cursors (all loads observe the last
store).  `capacity` is the slot count, one more than the effective
capacity. -/
structure Spsc where
  buffer : List Nat
  capacity : Nat
  pos_read : Nat
  pos_write : Nat
deriving DecidableEq

namespace Spsc

/-- Construct with an effective capacity (`SpscRingByteBuffer(std::size_t)`):
allocates `effective_capacity + 1` bytes (uninitialized, modelled as 0). -/
def init (effective_capacity : Nat) : Spsc :=
  { buffer := List.replicate (effective_capacity + 1) 0,
    capacity := effective_capacity + 1, pos_read := 0, pos_write := 0 }

/-- `effective_capacity()`: `_capacity - 1`. -/
def effective_capacity (s : Spsc) : Nat := s.capacity - 1

/-- `available_read()`: `(_capacity + _pos_write - _pos_read) % _capacity`. -/
def available_read (s : Spsc) : Nat :=
  (s.capacity + s.pos_write - s.pos_read) % s.capacity

/-- `available_write()`: `effective_capacity() - available_read()` (the two
loads have the same sequential value as in `available_read`). -/
def available_write (s : Spsc) : Nat :=
  s.effective_capacity - (s.capacity + s.pos_write - s.pos_read) % s.capacity

/-- `consecutive_write_length()`: `min(_capacity - _pos_write,
available_write())`. -/
def consecutive_write_length (s : Spsc) : Nat :=
  min (s.capacity - s.pos_write) s.available_write

/-- `consecutive_read_length()`: `min(_capacity - _pos_read,
available_read())`. -/
def consecutive_read_length (s : Spsc) : Nat :=
  min (s.capacity - s.pos_read) s.available_read

/-- `move_read_pos(diff)` for a non-negative diff:
`(_pos_read + diff + _capacity) % _capacity`. -/
def move_read_pos (s : Spsc) (diff : Nat) : Spsc :=
  { s with pos_read := (s.pos_read + diff + s.capacity) % s.capacity }

/-- `move_write_pos(diff)` for a non-negative diff. -/
def move_write_pos (s : Spsc) (diff : Nat) : Spsc :=
  { s with pos_write := (s.pos_write + diff + s.capacity) % s.capacity }

/-- `try_write(const void*, std::size_t)` (SpscRingByteBuffer.hpp:77-100):
fail on shortage, else one contiguous `memcpy` when the length fits before
the physical end of the buffer, otherwise a two-phase copy of
`consecutive_write_length()` bytes at the cursor followed by the remainder
at offset 0; finally publish the new write cursor. -/
def try_write (data : List Nat) (s : Spsc) : Bool × Spsc :=
  if data.length > s.available_write then (false, s)
  else
    let cl := s.consecutive_write_length
    let buf :=
      if data.length ≤ cl then spliceAt s.buffer s.pos_write data
      else spliceAt (spliceAt s.buffer s.pos_write (data.take cl)) 0 (data.drop cl)
    (true, move_write_pos { s with buffer := buf } data.length)

/-- `try_peek(void*, std::size_t)` (SpscRingByteBuffer.hpp:113-135): fail on
shortage, else copy out one or two phases without moving the read cursor. -/
def try_peek (length : Nat) (s : Spsc) : Option (List Nat) :=
  if length > s.available_read then none
  else
    let cl := s.consecutive_read_length
    if length ≤ cl then some ((s.buffer.drop s.pos_read).take length)
    else
      some ((s.buffer.drop s.pos_read).take cl ++ s.buffer.take (length - cl))

/-- `try_read(void*, std::size_t)`: `try_peek`, then publish the advanced
read cursor. -/
def try_read (length : Nat) (s : Spsc) : Option (List Nat) × Spsc :=
  match s.try_peek length with
  | none => (none, s)
  | some bs => (some bs, move_read_pos s length)

/-- Well-formedness of a ring state: the allocation has `capacity` bytes
and both cursors are in range (all states reachable from `init` satisfy
this). -/
def Wf (s : Spsc) : Prop :=
  s.buffer.length = s.capacity ∧ 0 < s.capacity ∧
    s.pos_read < s.capacity ∧ s.pos_write < s.capacity

instance (s : Spsc) : Decidable s.Wf := by unfold Wf; infer_instance

/-- The readable content of the ring in FIFO order: `available_read` bytes
starting at the read cursor, wrapping at the physical end. -/
def readable (s : Spsc) : List Nat :=
  ((s.buffer.drop s.pos_read) ++ s.buffer.take s.pos_read).take s.available_read

end Spsc

/-- State of `nb::RingQueue<T>` (RingQueue.hpp).  The raw slot array of
`capacity + 1` slots is modelled as a list of `Option α`: `some v` for a
slot holding a constructed element, `none` for raw storage. -/
structure RingQueue (α : Type) where
  slots : List (Option α)
  capacity_plus_one : Nat
  read_idx : Nat
  write_idx : Nat
deriving DecidableEq

namespace RingQueue

variable {α : Type}

/-- `RingQueue(std::size_t capacity)`: `capacity + 1` raw slots. -/
def mk0 (capacity : Nat) : RingQueue α :=
  { slots := List.replicate (capacity + 1) none,
    capacity_plus_one := capacity + 1, read_idx := 0, write_idx := 0 }

/-- `move_idx(idx, diff)` for a non-negative diff:
`(idx + diff + _capacity_plus_one) % _capacity_plus_one`. -/
def move_idx (q : RingQueue α) (idx diff : Nat) : Nat :=
  (idx + diff + q.capacity_plus_one) % q.capacity_plus_one

/-- `capacity()`: `_capacity_plus_one - 1`. -/
def capacity (q : RingQueue α) : Nat := q.capacity_plus_one - 1

/-- `empty()`: `_read_idx == _write_idx`. -/
def empty (q : RingQueue α) : Bool := q.read_idx == q.write_idx

/-- `full()`: `move_idx(_write_idx, +1) == _read_idx`. -/
def full (q : RingQueue α) : Bool := q.move_idx q.write_idx 1 == q.read_idx

/-- `size()`: `(_write_idx - _read_idx + _capacity_plus_one) %
_capacity_plus_one` (the `size_t` computation equals this `Nat` value for
in-range indices). -/
def size (q : RingQueue α) : Nat :=
  (q.capacity_plus_one + q.write_idx - q.read_idx) % q.capacity_plus_one

/-- `try_push(value)` / `try_emplace(args...)`: placement-construct at the
write slot unless full. -/
def try_push (q : RingQueue α) (v : α) : Bool × RingQueue α :=
  if q.full then (false, q)
  else
    (true, { q with slots := q.slots.set q.write_idx (some v),
                    write_idx := q.move_idx q.write_idx 1 })

/-- `front()`: unchecked element access at the read index. -/
def front (q : RingQueue α) : Option α := q.slots.getD q.read_idx none

/-- `pop()`: destroy the front element (slot returns to raw storage) and
advance the read index. -/
def pop (q : RingQueue α) : RingQueue α :=
  { q with slots := q.slots.set q.read_idx none,
           read_idx := q.move_idx q.read_idx 1 }

/-- The element sequence in FIFO order (ghost view used to state
order-preservation). -/
def contents (q : RingQueue α) : List (Option α) :=
  (List.range q.size).map
    (fun i => q.slots.getD ((q.read_idx + i) % q.capacity_plus_one) none)

/-- `resize(new_capacity)` (RingQueue.hpp:198-246): allocate `new_capacity
+ 1` fresh slots, move the elements in logical FIFO order to positions
`[0, size)`, set `R = 0`, `W = size`. -/
def resize (q : RingQueue α) (new_capacity : Nat) : RingQueue α :=
  if new_capacity = 0 then
    { slots := [], capacity_plus_one := 1, read_idx := 0, write_idx := 0 }
  else
    let sz := q.size
    { slots := contents q ++ List.replicate (new_capacity + 1 - sz) none,
      capacity_plus_one := new_capacity + 1, read_idx := 0, write_idx := sz }

/-- `try_resize_buffer(new_capacity)` (RingQueue.hpp:82-91): fail only when
the request cannot hold the current elements; succeed as a no-op when the
request does not exceed the current capacity (grow-only); else reallocate. -/
def try_resize_buffer (q : RingQueue α) (new_capacity : Nat) :
    Bool × RingQueue α :=
  if new_capacity < q.size then (false, q)
  else if new_capacity ≤ q.capacity then (true, q)
  else (true, q.resize new_capacity)

/-- `shrink_to_fit()` (RingQueue.hpp:93-97): reallocate to exactly `size()`
slots unless already full. -/
def shrink_to_fit (q : RingQueue α) : RingQueue α :=
  if q.full then q else q.resize q.size

/-- Well-formedness: the slot list has `capacity + 1` entries and both
indices are in range. -/
def Wf (q : RingQueue α) : Prop :=
  q.slots.length = q.capacity_plus_one ∧ 0 < q.capacity_plus_one ∧
    q.read_idx < q.capacity_plus_one ∧ q.write_idx < q.capacity_plus_one

instance [DecidableEq α] (q : RingQueue α) : Decidable q.Wf := by
  unfold Wf; infer_instance

end RingQueue

/-- One slot (`Node`) of the no-destroy-on-return `LockfreeObjectPool`
(`LockfreeObjectPoolTraits<T, false>::Node`): a separate `next` pointer
(`none` = null) and the `constructed` flag; the `T` storage itself carries
no information the claims need beyond whether it is constructed. -/
structure PNode where
  next : Option Nat
  constructed : Bool
deriving DecidableEq

/-- Sequential state of `nb::LockfreeObjectPool<T, false>` (no-destroy
mode).  Nodes are identified by their index in `nodes` (allocation order
across blocks).  `tagv` is the tag stored in the packed `_node_head` word;
`tw` (a parameter of the operations) is the tag width
`UPPER_TAG_BITS + LOWER_TAG_BITS`, so `set_tag` keeps values modulo
`2 ^ tw`.  `free_ids` is a ghost copy of the freelist (head first) used to
state invariants; `constructs` is a ghost counter of successful
`construct()` calls. -/
structure Pool where
  nodes : List PNode
  head : Option Nat
  tagv : Nat
  free_ids : List Nat
  next_block_node_count : Nat
  capacity : Nat
  used_nodes : Nat
  block_counts : List Nat
  constructs : Nat
deriving DecidableEq

namespace Pool

/-- `next` field of node `i` (null when out of range). -/
def nextOf (nodes : List PNode) (i : Nat) : Option Nat :=
  (nodes.getD i ⟨none, false⟩).next

/-- The nodes of a fresh block of `cnt` nodes starting at id `base`:
node `i` links to `base + i + 1`, the last node links to the freelist head
observed at push time (`tl`), and every `constructed` flag starts false
(LockfreeObjectPool.hpp `add_new_block`, node setup loop). -/
def blockNodes (base cnt : Nat) (tl : Option Nat) : List PNode :=
  (List.range cnt).map
    (fun i => if i + 1 < cnt then ⟨some (base + i + 1), false⟩ else ⟨tl, false⟩)

/-- `add_new_block()` under the block mutex, sequential semantics: the
double-check `if (!_node_head.load())` guards the whole body; the chain of
`_next_block_node_count` fresh nodes is pushed with the previous head's tag
carried over (`new_head.set_tag(old_head.get_tag())`), and
`_capacity += count; _next_block_node_count = _capacity`. -/
def add_new_block (tw : Nat) (p : Pool) : Pool :=
  if p.head = none ∧ p.next_block_node_count ≠ 0 then
    let base := p.nodes.length
    let cnt := p.next_block_node_count
    { nodes := p.nodes ++ blockNodes base cnt p.head,
      head := some base,
      tagv := p.tagv % 2 ^ tw,
      free_ids := List.range' base cnt ++ p.free_ids,
      next_block_node_count := p.capacity + cnt,
      capacity := p.capacity + cnt,
      used_nodes := p.used_nodes,
      block_counts := cnt :: p.block_counts,
      constructs := p.constructs }
  else p

/-- The successful pop of `construct()`: replace head `(P, t)` by
`(P->next, t + 1)` (tag bumped through `set_tag(get_tag() + 1)`, hence
modulo `2 ^ tw`), mark the slot constructed, bump `_used_nodes`. -/
def popNode (tw : Nat) (p : Pool) : Pool :=
  match p.head with
  | none => p
  | some h =>
    let nd := p.nodes.getD h ⟨none, false⟩
    { p with
      head := nd.next,
      tagv := (p.tagv + 1) % 2 ^ tw,
      free_ids := p.free_ids.tail,
      used_nodes := p.used_nodes + 1,
      constructs := p.constructs + 1,
      nodes := p.nodes.set h ⟨nd.next, true⟩ }

/-- `construct()` (LockfreeObjectPool.hpp:168-205), sequential semantics:
allocate a block if the freelist is empty, then pop the head. -/
def construct (tw : Nat) (p : Pool) : Pool :=
  let p1 := if p.head = none then p.add_new_block tw else p
  p1.popNode tw

/-- `destroy(obj)` (LockfreeObjectPool.hpp:210-238), sequential semantics,
for a valid argument (an object currently handed out by this pool): link
the node to the old head and install it as the new head with the old
head's tag carried over (`new_head.set_tag(old_head.get_tag())`).  An
invalid argument (double-free / foreign object) is undefined behaviour in
the source and modelled as a no-op. -/
def destroy (tw : Nat) (nid : Nat) (p : Pool) : Pool :=
  if nid < p.nodes.length ∧ nid ∉ p.free_ids ∧
      (p.nodes.getD nid ⟨none, false⟩).constructed then
    { p with
      nodes := p.nodes.set nid ⟨p.head, (p.nodes.getD nid ⟨none, false⟩).constructed⟩,
      head := some nid,
      tagv := p.tagv % 2 ^ tw,
      free_ids := nid :: p.free_ids,
      used_nodes := p.used_nodes - 1 }
  else p

/-- `LockfreeObjectPool(std::size_t capacity)`:
`_next_block_node_count = capacity != 0 ? capacity : 16`, then one
`add_new_block()` when `capacity != 0`. -/
def init (tw c : Nat) : Pool :=
  let base : Pool :=
    { nodes := [], head := none, tagv := 0, free_ids := [],
      next_block_node_count := if c ≠ 0 then c else 16,
      capacity := 0, used_nodes := 0, block_counts := [], constructs := 0 }
  if c ≠ 0 then base.add_new_block tw else base

/-- A single-threaded pool operation. -/
inductive Op where
  | construct
  | destroy (nid : Nat)
deriving DecidableEq

/-- Apply one operation. -/
def step (tw : Nat) (p : Pool) : Op → Pool
  | .construct => p.construct tw
  | .destroy nid => p.destroy tw nid

/-- Run a single-threaded sequence of operations on a pool constructed
with capacity `c`. -/
def run (tw c : Nat) (ops : List Op) : Pool :=
  ops.foldl (step tw) (init tw c)

/-- The walk of `~LockfreeObjectPool()` in no-destroy mode
(LockfreeObjectPool.hpp:141-152): start at `_node_head`, follow `next`,
collect the ids whose `constructed` flag is set (their `T` gets its
destructor call).  Fuel makes the recursion total; the destructor uses
`nodes.length + 1`, enough for any null-terminated freelist. -/
def destructorWalk (nodes : List PNode) : Nat → Option Nat → List Nat
  | 0, _ => []
  | _ + 1, none => []
  | fuel + 1, some h =>
    (if (nodes.getD h ⟨none, false⟩).constructed then [h] else []) ++
      destructorWalk nodes fuel (nextOf nodes h)

/-- Effect of `~LockfreeObjectPool()`: the list of node ids whose `T` is
destroyed (in walk order), and the list of deallocated blocks (the `while
(_block_head)` loop frees every block). -/
def runDestructor (p : Pool) : List Nat × List Nat :=
  (destructorWalk p.nodes (p.nodes.length + 1) p.head, p.block_counts)

/-- The freelist shape: `isChain nodes h l` says that starting from head
`h` and following `next` visits exactly the ids in `l` and then reaches
null. -/
def isChain (nodes : List PNode) : Option Nat → List Nat → Prop
  | h, [] => h = none
  | h, x :: xs => h = some x ∧ isChain nodes (nextOf nodes x) xs

/-- Block-growth shape (claim C7): the oldest block holds `i0` nodes and
every younger block holds the sum of all older blocks' node counts.  The
list is newest first, as `_block_head` links it. -/
def blocksGood (i0 : Nat) : List Nat → Bool
  | [] => true
  | [b] => b == i0
  | b :: c :: rest => (b == (c :: rest).sum) && blocksGood i0 (c :: rest)

/-- Master invariant of the reachable pool states (pool constructed with
first-block request `i0`, tag width `tw`): the stored head tag counts the
successful `construct()` calls modulo `2 ^ tw`; the capacity is the total
of the block node counts, which grow as `blocksGood` describes; and the
ghost `free_ids` list is exactly the null-terminated freelist chain
starting at `head`. -/
structure Inv (tw i0 : Nat) (p : Pool) : Prop where
  tag_ok : p.tagv = p.constructs % 2 ^ tw
  cap_ok : p.capacity = p.block_counts.sum
  nbc_ok : p.next_block_node_count =
    (if p.block_counts = [] then i0 else p.capacity)
  bg : blocksGood i0 p.block_counts = true
  chain : isChain p.nodes p.head p.free_ids
  nodup : p.free_ids.Nodup
  bounded : ∀ x ∈ p.free_ids, x < p.nodes.length

end Pool

/-- The buffer state after the four writes of the round-trip scenario:
int8 −7, uint32 0xDEADBEEF, double 3.125, string "hi" with the default
32-bit length prefix, on a 32-byte buffer. -/
def c1AfterWrites : SerializeBuffer :=
  ((((SerializeBuffer.mk (List.replicate 32 0) 32 0 0 false).try_write_int 1
        (-7)).2.try_write_num 4 0xDEADBEEF).2.try_write_num 8
      (float64BitsOfDyadic 25 3)).2.try_write_str 4 1 [104, 105] |>.2

/-- The 19 wire bytes the round-trip scenario expects:
F9 EF BE AD DE 00 00 00 00 00 00 09 40 02 00 00 00 68 69. -/
def c1Expected : List Nat :=
  [0xF9, 0xEF, 0xBE, 0xAD, 0xDE, 0, 0, 0, 0, 0, 0, 0x09, 0x40,
   2, 0, 0, 0, 104, 105]

/-- The failing input of the string-read overflow: a buffer holding exactly
the 8 bytes of the little-endian 64-bit value 2^62 (a 64-bit length
prefix), fully unread. -/
def c3Input : SerializeBuffer :=
  SerializeBuffer.mk [0, 0, 0, 0, 0, 0, 0, 64] 8 0 8 false

/-- SPSC scenario state after the producer wrote bytes 1..8 into a ring of
effective capacity 8. -/
def c4s1 : Spsc := (Spsc.try_write [1, 2, 3, 4, 5, 6, 7, 8] (Spsc.init 8)).2

/-- SPSC scenario state after the consumer then read 4 bytes. -/
def c4s2 : Spsc := (Spsc.try_read 4 c4s1).2

/-- SPSC scenario state after the producer then wrote bytes 9..12 (a
two-phase wrap-around copy: 1 byte at offset 8, 3 bytes at offset 0). -/
def c4s3 : Spsc := (Spsc.try_write [9, 10, 11, 12] c4s2).2

/-- Ring-queue scenario state: capacity 5 holding the elements 1, 2, 3, 4. -/
def c8q4 : RingQueue Nat :=
  ((((RingQueue.mk0 5).try_push 1).2.try_push 2).2.try_push 3).2.try_push 4 |>.2

/-- Claim C1: with sufficient capacity, writing int8 −7, uint32 0xDEADBEEF,
double 3.125 and the string "hi" (default 32-bit length prefix) produces
exactly the 19 bytes F9 EF BE AD DE 00 00 00 00 00 00 09 40 02 00 00 00 68
69 in positions [0, w); reading the same typed sequence back succeeds,
yields the identical values, and leaves `empty() = true` and
`fail() = false` (the final `fail = false` also certifies that no write or
read failed, since the flag is sticky). -/
theorem c1_serialize_roundtrip :
    c1AfterWrites.buffer.take 19 = c1Expected ∧
    c1AfterWrites.pos_write = 19 ∧ c1AfterWrites.pos_read = 0 ∧
    c1AfterWrites.fail = false ∧
    (c1AfterWrites.try_read_int 1).1 = some (-7) ∧
    ((c1AfterWrites.try_read_int 1).2.try_read_num 4).1 = some 0xDEADBEEF ∧
    (((c1AfterWrites.try_read_int 1).2.try_read_num 4).2.try_read_num 8).1 =
      some (float64BitsOfDyadic 25 3) ∧
    ((((c1AfterWrites.try_read_int 1).2.try_read_num
        4).2.try_read_num 8).2.try_read_str 4 1).1 = some [104, 105] ∧
    ((((c1AfterWrites.try_read_int 1).2.try_read_num
        4).2.try_read_num 8).2.try_read_str 4 1).2.empty = true ∧
    ((((c1AfterWrites.try_read_int 1).2.try_read_num
        4).2.try_read_num 8).2.try_read_str 4 1).2.fail = false := by
  decide

/-- Claim C2, counterexample: on a freshly constructed pool (capacity 0,
no-destroy mode), a single `construct()` pops node 0 and leaves it
constructed and handed out (`used_nodes = 1`, not on the freelist); the
destructor's walk then destroys no `T` at all, although node 0's `T` is
constructed at that moment — contradicting the claim that used slots are
destroyed too. -/
theorem c2_counterexample :
    (Pool.run 8 0 [Pool.Op.construct]).runDestructor.1 = [] ∧
    ((Pool.run 8 0 [Pool.Op.construct]).nodes.getD 0
        ⟨none, false⟩).constructed = true ∧
    (Pool.run 8 0 [Pool.Op.construct]).used_nodes = 1 ∧
    0 ∉ (Pool.run 8 0 [Pool.Op.construct]).free_ids := by
  decide

/-- Claim C3: evaluation of the code at the failing input.  The buffer
holds exactly the 8-byte little-endian prefix L = 2^62 (and nothing else);
reading a NUL-terminated string of 4-byte code units with a 64-bit length
prefix peeks L successfully, and the claim's antecedent holds:
`sizeof(prefix) + L * sizeof(code unit) = 8 + 2^64 > used_space() = 8`.
The claim then demands failure with the fail flag set and `r` unchanged —
but the code computes `payload_bytes = L * 4` in `size_t`, which wraps to
0, passes the shortage check, consumes the prefix, returns true and leaves
the fail flag clear (and, in the real program, writes the terminator
2^62 code units past the destination). -/
theorem c3_overflow_eval :
    8 + natFromLE (SerializeBuffer.peekWindow c3Input 8) * 4 >
      c3Input.used_space ∧
    (c3Input.try_read_cstr 8 4).1 = some [0, 0, 0, 0] ∧
    (c3Input.try_read_cstr 8 4).2.pos_read = 8 ∧
    (c3Input.try_read_cstr 8 4).2.fail = false := by
  decide

namespace Pool

theorem isChain_nil {nodes : List PNode} {hd : Option Nat} :
    isChain nodes hd [] ↔ hd = none := Iff.rfl

theorem isChain_cons {nodes : List PNode} {hd : Option Nat} {x : Nat}
    {xs : List Nat} :
    isChain nodes hd (x :: xs) ↔
      hd = some x ∧ isChain nodes (nextOf nodes x) xs := Iff.rfl

theorem nextOf_set_of_ne {nodes : List PNode} {i j : Nat} {v : PNode}
    (h : i ≠ j) : nextOf (nodes.set i v) j = nextOf nodes j := by
  unfold nextOf
  simp [List.getD_eq_getElem?_getD, List.getElem?_set_ne h]

theorem nextOf_set_self {nodes : List PNode} {i : Nat} {v : PNode}
    (h : i < nodes.length) : nextOf (nodes.set i v) i = v.next := by
  unfold nextOf
  simp [List.getD_eq_getElem?_getD, List.getElem?_set_self h]

theorem isChain_congr {nodes nodes' : List PNode} {l : List Nat} :
    ∀ {hd : Option Nat}, (∀ x ∈ l, nextOf nodes' x = nextOf nodes x) →
      isChain nodes hd l → isChain nodes' hd l := by
  induction l with
  | nil => intro hd _ hc; exact hc
  | cons x xs ih =>
    intro hd hnx hc
    rw [isChain_cons] at hc ⊢
    refine ⟨hc.1, ?_⟩
    rw [hnx x (by simp)]
    exact ih (fun y hy => hnx y (List.mem_cons_of_mem _ hy)) hc.2

theorem blockNodes_length (base cnt : Nat) (tl : Option Nat) :
    (blockNodes base cnt tl).length = cnt := by
  simp [blockNodes]

theorem nextOf_blockNodes (nodes0 : List PNode) {cnt : Nat} (tl : Option Nat)
    {j : Nat} (hj : j < cnt) :
    nextOf (nodes0 ++ blockNodes nodes0.length cnt tl) (nodes0.length + j) =
      (if j + 1 < cnt then some (nodes0.length + j + 1) else tl) := by
  unfold nextOf blockNodes
  rw [List.getD_eq_getElem?_getD,
    List.getElem?_append_right (Nat.le_add_right _ _)]
  simp only [Nat.add_sub_cancel_left, List.getElem?_map, List.getElem?_range, hj]
  by_cases hc : j + 1 < cnt <;> simp [hc]

theorem isChain_blockNodes_aux (nodes0 : List PNode) (cnt : Nat) :
    ∀ (m j : Nat), j + m = cnt →
      isChain (nodes0 ++ blockNodes nodes0.length cnt none)
        (if j < cnt then some (nodes0.length + j) else none)
        (List.range' (nodes0.length + j) m) := by
  intro m
  induction m with
  | zero =>
    intro j hj
    rw [Nat.add_zero] at hj
    subst hj
    simp [isChain_nil]
  | succ m ih =>
    intro j hj
    have hjlt : j < cnt := by omega
    rw [List.range'_succ, isChain_cons, if_pos hjlt]
    refine ⟨rfl, ?_⟩
    rw [nextOf_blockNodes nodes0 none hjlt]
    have hih := ih (j + 1) (by omega)
    have harr : nodes0.length + (j + 1) = nodes0.length + j + 1 := by omega
    rw [harr] at hih
    rcases Nat.lt_or_ge (j + 1) cnt with hc | hc
    · rwa [if_pos hc] at hih ⊢
    · rw [if_neg (by omega)] at hih ⊢
      exact hih

theorem isChain_blockNodes (nodes0 : List PNode) {cnt : Nat} (hcnt : cnt ≠ 0) :
    isChain (nodes0 ++ blockNodes nodes0.length cnt none)
      (some nodes0.length) (List.range' nodes0.length cnt) := by
  have := isChain_blockNodes_aux nodes0 cnt cnt 0 (by omega)
  rw [if_pos (by omega), Nat.add_zero] at this
  exact this

theorem free_ids_nil_of_head_none {p : Pool} (h : isChain p.nodes p.head p.free_ids)
    (hh : p.head = none) : p.free_ids = [] := by
  cases hf : p.free_ids with
  | nil => rfl
  | cons x xs =>
    rw [hf, isChain_cons, hh] at h
    exact absurd h.1.symm (by simp)

theorem Inv.add_new_block {tw i0 : Nat} {p : Pool} (h : Inv tw i0 p) :
    Inv tw i0 (p.add_new_block tw) := by
  unfold Pool.add_new_block
  split
  case isFalse => exact h
  case isTrue hg =>
    obtain ⟨hhead, hcnt⟩ := hg
    have hfree : p.free_ids = [] := free_ids_nil_of_head_none h.chain hhead
    refine ⟨?_, ?_, ?_, ?_, ?_, ?_, ?_⟩
    · rw [h.tag_ok, Nat.mod_mod]
    · simp [h.cap_ok, Nat.add_comm]
    · simp
    · rcases hbc : p.block_counts with _ | ⟨b, rest⟩
      · have : p.next_block_node_count = i0 := by
          rw [h.nbc_ok, hbc, if_pos rfl]
        simp [blocksGood, this]
      · have hnbc : p.next_block_node_count = p.capacity := by
          rw [h.nbc_ok, hbc, if_neg (by simp)]
        have hbg := h.bg
        rw [hbc] at hbg
        simp only [blocksGood, hnbc, h.cap_ok, hbc, Bool.and_eq_true, beq_iff_eq]
        exact ⟨by trivial, hbg⟩
    · simp only [hfree, List.append_nil, hhead]
      exact isChain_blockNodes p.nodes hcnt
    · simp [hfree, List.nodup_range']
    · intro x hx
      simp only [hfree, List.append_nil, List.mem_range'] at hx
      obtain ⟨i, hi, rfl⟩ := hx
      rw [List.length_append, blockNodes_length]
      omega

theorem Inv.popNode {tw i0 : Nat} {p : Pool} (h : Inv tw i0 p) :
    Inv tw i0 (p.popNode tw) := by
  unfold Pool.popNode
  cases hh : p.head with
  | none => exact h
  | some hd =>
    have hchain := h.chain
    rcases hf : p.free_ids with _ | ⟨x, xs⟩
    · rw [hf, isChain_nil, hh] at hchain
      exact absurd hchain (by simp)
    · rw [hf, isChain_cons, hh] at hchain
      obtain ⟨hx, hrest⟩ := hchain
      have hxhd : hd = x := by injection hx
      subst hxhd
      have hdlt : hd < p.nodes.length := h.bounded hd (by rw [hf]; simp)
      have hnd : (p.nodes.getD hd ⟨none, false⟩).next = nextOf p.nodes hd := rfl
      refine ⟨?_, ?_, ?_, ?_, ?_, ?_, ?_⟩
      · simp only [h.tag_ok]
        conv_lhs => rw [Nat.add_mod, Nat.mod_mod]
        conv_rhs => rw [Nat.add_mod]
      · exact h.cap_ok
      · exact h.nbc_ok
      · exact h.bg
      · simp only [hf, List.tail_cons, hnd]
        refine isChain_congr (fun y _ => ?_) hrest
        rcases Nat.decEq hd y with hne | rfl
        · exact nextOf_set_of_ne hne
        · rw [nextOf_set_self hdlt]
      · have := h.nodup
        rw [hf] at this
        exact (List.nodup_cons.mp this).2
      · intro y hy
        rw [List.length_set]
        exact h.bounded y (by rw [hf]; exact List.mem_cons_of_mem _ hy)

theorem Inv.construct {tw i0 : Nat} {p : Pool} (h : Inv tw i0 p) :
    Inv tw i0 (p.construct tw) := by
  unfold Pool.construct
  split
  · exact (h.add_new_block).popNode
  · exact h.popNode

theorem Inv.destroy {tw i0 : Nat} {p : Pool} (h : Inv tw i0 p) (nid : Nat) :
    Inv tw i0 (p.destroy tw nid) := by
  unfold Pool.destroy
  split
  case isFalse => exact h
  case isTrue hg =>
    obtain ⟨hlt, hnotfree, _⟩ := hg
    refine ⟨?_, h.cap_ok, h.nbc_ok, h.bg, ?_, ?_, ?_⟩
    · rw [h.tag_ok, Nat.mod_mod]
    · rw [isChain_cons]
      refine ⟨rfl, ?_⟩
      rw [nextOf_set_self hlt]
      refine isChain_congr (fun y hy => ?_) h.chain
      exact nextOf_set_of_ne (fun hne => hnotfree (hne ▸ hy))
    · exact List.nodup_cons.mpr ⟨hnotfree, h.nodup⟩
    · intro y hy
      rw [List.length_set]
      rcases List.mem_cons.mp hy with rfl | hy'
      · exact hlt
      · exact h.bounded y hy'

theorem Inv.step {tw i0 : Nat} {p : Pool} (h : Inv tw i0 p) (op : Op) :
    Inv tw i0 (p.step tw op) := by
  cases op with
  | construct => exact h.construct
  | destroy nid => exact h.destroy nid

theorem Inv.init (tw c : Nat) :
    Inv tw (if c = 0 then 16 else c) (Pool.init tw c) := by
  have hbase :
      Inv tw (if c = 0 then 16 else c)
        { nodes := [], head := none, tagv := 0, free_ids := [],
          next_block_node_count := if c ≠ 0 then c else 16,
          capacity := 0, used_nodes := 0, block_counts := [],
          constructs := 0 } := by
    refine ⟨by simp, rfl, ?_, rfl, isChain_nil.mpr rfl, List.nodup_nil,
      by intro x hx; cases hx⟩
    by_cases hc : c = 0 <;> simp [hc]
  by_cases hc : c = 0
  · have hini : Pool.init tw c =
        { nodes := [], head := none, tagv := 0, free_ids := [],
          next_block_node_count := if c ≠ 0 then c else 16,
          capacity := 0, used_nodes := 0, block_counts := [],
          constructs := 0 } := by
      simp [Pool.init, hc]
    rw [hini]
    exact hbase
  · have hini : Pool.init tw c = Pool.add_new_block tw
        { nodes := [], head := none, tagv := 0, free_ids := [],
          next_block_node_count := if c ≠ 0 then c else 16,
          capacity := 0, used_nodes := 0, block_counts := [],
          constructs := 0 } := by
      simp [Pool.init, hc]
    rw [hini]
    exact hbase.add_new_block

theorem Inv.run (tw c : Nat) (ops : List Op) :
    Inv tw (if c = 0 then 16 else c) (Pool.run tw c ops) := by
  unfold Pool.run
  generalize hstart : Pool.init tw c = p0
  have h0 : Inv tw (if c = 0 then 16 else c) p0 := hstart ▸ Inv.init tw c
  clear hstart
  induction ops generalizing p0 with
  | nil => exact h0
  | cons op ops ih => exact ih _ (h0.step op)

theorem destructorWalk_of_isChain {nodes : List PNode} :
    ∀ (l : List Nat) (hd : Option Nat) (fuel : Nat),
      isChain nodes hd l → l.length ≤ fuel →
      destructorWalk nodes fuel hd =
        l.filter (fun x => (nodes.getD x ⟨none, false⟩).constructed) := by
  intro l
  induction l with
  | nil =>
    intro hd fuel hc _
    rw [isChain_nil.mp hc]
    cases fuel <;> rfl
  | cons x xs ih =>
    intro hd fuel hc hfuel
    rw [isChain_cons] at hc
    obtain ⟨rfl, hrest⟩ := hc
    cases fuel with
    | zero => exact absurd hfuel (by simp)
    | succ f =>
      rw [destructorWalk, ih (nextOf nodes x) f hrest (by simpa using hfuel),
        List.filter_cons]
      split <;> simp_all

theorem free_ids_length_le {p : Pool} (h : Inv tw i0 p) :
    p.free_ids.length ≤ p.nodes.length := by
  classical
  have hcard : p.free_ids.toFinset.card = p.free_ids.length :=
    List.toFinset_card_of_nodup h.nodup
  have hsub : p.free_ids.toFinset ⊆ Finset.range p.nodes.length := by
    intro x hx
    rw [List.mem_toFinset] at hx
    exact Finset.mem_range.mpr (h.bounded x hx)
  calc p.free_ids.length = p.free_ids.toFinset.card := hcard.symm
    _ ≤ (Finset.range p.nodes.length).card := Finset.card_le_card hsub
    _ = p.nodes.length := Finset.card_range _

end Pool

/-- Claim C2, amended: when a no-destroy-mode pool is destroyed, the
destructor's walk from the freelist head destroys exactly the constructed
`T`s of the slots currently on the freelist (slots handed out to callers
are not reached and not destroyed; they are the reported leak), and then
every block allocation is deallocated. -/
theorem c2_destructor_walks_freelist (tw c : Nat) (ops : List Pool.Op) :
    (Pool.run tw c ops).runDestructor.1 =
      (Pool.run tw c ops).free_ids.filter
        (fun x => ((Pool.run tw c ops).nodes.getD x ⟨none, false⟩).constructed) ∧
    (Pool.run tw c ops).runDestructor.2 = (Pool.run tw c ops).block_counts := by
  have h := Pool.Inv.run tw c ops
  refine ⟨?_, rfl⟩
  unfold Pool.runDestructor
  exact Pool.destructorWalk_of_isChain _ _ _ h.chain
    (le_trans (Pool.free_ids_length_le h) (Nat.le_succ _))

/-- Claim C6: in any single-threaded operation sequence, each successful
`construct()` replaces the head `(P, t)` by `(P->next, t + 1)` while
`destroy()` and the block push carry the tag over unchanged, so the head's
tag always equals the number of successful `construct()` calls performed so
far, modulo `2 ^ tag_width`. -/
theorem c6_head_tag_counts_constructs (tw c : Nat) (ops : List Pool.Op) :
    (Pool.run tw c ops).tagv = (Pool.run tw c ops).constructs % 2 ^ tw :=
  (Pool.Inv.run tw c ops).tag_ok

theorem blocksGood_getLast {i0 : Nat} :
    ∀ {l : List Nat}, Pool.blocksGood i0 l = true → l ≠ [] →
      l.getLast? = some i0 := by
  intro l
  induction l with
  | nil => intro _ h; exact absurd rfl h
  | cons b tail ih =>
    intro hbg _
    cases tail with
    | nil =>
      simp only [Pool.blocksGood, beq_iff_eq] at hbg
      simp [hbg]
    | cons c rest =>
      simp only [Pool.blocksGood, Bool.and_eq_true] at hbg
      rw [List.getLast?_cons_cons]
      exact ih hbg.2 (by simp)

/-- Claim C7: block growth of the lock-free pool.  For every reachable
state: the block counts satisfy `blocksGood` (each block added after the
first holds the sum of all prior blocks' node counts); the oldest block
holds 16 nodes when the pool was constructed with capacity zero and
exactly the requested count otherwise; and whenever a block was added to a
nonempty pool the total capacity doubled. -/
theorem c7_block_growth (tw c : Nat) (ops : List Pool.Op) :
    Pool.blocksGood (if c = 0 then 16 else c)
      (Pool.run tw c ops).block_counts = true ∧
    ((Pool.run tw c ops).block_counts ≠ [] →
      (Pool.run tw c ops).block_counts.getLast? =
        some (if c = 0 then 16 else c)) ∧
    (∀ b rest, (Pool.run tw c ops).block_counts = b :: rest → rest ≠ [] →
      b = rest.sum ∧ (b :: rest).sum = 2 * rest.sum) := by
  have h := Pool.Inv.run tw c ops
  refine ⟨h.bg, fun hne => blocksGood_getLast h.bg hne, ?_⟩
  intro b rest hbc hrne
  have hbg := h.bg
  rw [hbc] at hbg
  rcases rest with _ | ⟨r0, rtl⟩
  · exact absurd rfl hrne
  · simp only [Pool.blocksGood, Bool.and_eq_true, beq_iff_eq] at hbg
    refine ⟨hbg.1, ?_⟩
    rw [List.sum_cons, hbg.1, Nat.two_mul]

/-- Witness for C7 at a concrete input: a zero-capacity pool after 17
`construct()` calls has blocks `[16, 16]` (newest first): the second block
holds the sum of the prior counts, the oldest block holds 16, and capacity
doubled from 16 to 32. -/
theorem c7_block_growth_witness :
    (Pool.run 8 0 (List.replicate 17 Pool.Op.construct)).block_counts =
      [16, 16] ∧
    (Pool.run 8 0 (List.replicate 17 Pool.Op.construct)).block_counts.getLast? =
      some 16 ∧
    16 = ([16] : List Nat).sum ∧ ([16, 16] : List Nat).sum = 2 * ([16] : List Nat).sum :=
  ⟨by decide,
   (c7_block_growth 8 0 (List.replicate 17 Pool.Op.construct)).2.1 (by decide),
   ((c7_block_growth 8 0 (List.replicate 17 Pool.Op.construct)).2.2 16 [16]
      (by decide) (by decide)).1,
   ((c7_block_growth 8 0 (List.replicate 17 Pool.Op.construct)).2.2 16 [16]
      (by decide) (by decide)).2⟩

namespace SerializeBuffer

theorem try_write_fail (sb : SerializeBuffer) (d : List Nat)
    (h : sb.fail = true) : (sb.try_write d).2.fail = true := by
  unfold try_write; split <;> simp [h]

theorem try_peek_fail (sb : SerializeBuffer) (n : Nat)
    (h : sb.fail = true) : (sb.try_peek n).2.fail = true := by
  unfold try_peek; split <;> simp [h]

theorem try_read_fail (sb : SerializeBuffer) (n : Nat)
    (h : sb.fail = true) : (sb.try_read n).2.fail = true := by
  have hp := try_peek_fail sb n h
  unfold try_read
  rcases hpe : sb.try_peek n with ⟨o, sb'⟩
  rw [hpe] at hp
  cases o <;> simpa using hp

theorem try_write_num_fail (sb : SerializeBuffer) (k v : Nat)
    (h : sb.fail = true) : (sb.try_write_num k v).2.fail = true :=
  try_write_fail sb _ h

theorem try_read_num_fail (sb : SerializeBuffer) (k : Nat)
    (h : sb.fail = true) : (sb.try_read_num k).2.fail = true := by
  have hr := try_read_fail sb k h
  unfold try_read_num
  rcases hre : sb.try_read k with ⟨o, sb'⟩
  rw [hre] at hr
  cases o <;> simpa using hr

theorem try_peek_num_fail (sb : SerializeBuffer) (k : Nat)
    (h : sb.fail = true) : (sb.try_peek_num k).2.fail = true := by
  have hp := try_peek_fail sb k h
  unfold try_peek_num
  rcases hpe : sb.try_peek k with ⟨o, sb'⟩
  rw [hpe] at hp
  cases o <;> simpa using hp

theorem try_write_str_fail (sb : SerializeBuffer) (pf cs : Nat)
    (us : List Nat) (h : sb.fail = true) :
    (sb.try_write_str pf cs us).2.fail = true := by
  simp only [try_write_str]
  split
  · simp [h]
  · exact try_write_fail _ _ (try_write_fail _ _ h)

theorem try_read_str_fail (sb : SerializeBuffer) (pf cs : Nat)
    (h : sb.fail = true) : (sb.try_read_str pf cs).2.fail = true := by
  have hp := try_peek_num_fail sb pf h
  unfold try_read_str
  rcases hpe : sb.try_peek_num pf with ⟨o, sb1⟩
  rw [hpe] at hp
  cases o with
  | none => simpa using hp
  | some len =>
    simp only
    split
    · simp
    · have hr := try_read_fail { sb1 with pos_read := sb1.pos_read + pf }
        (len * cs % sizeTMod) (by simpa using hp)
      rcases hre : ({ sb1 with pos_read := sb1.pos_read + pf} :
          SerializeBuffer).try_read (len * cs % sizeTMod) with ⟨o2, sb3⟩
      rw [hre] at hr
      cases o2 <;> simpa using hr

theorem try_read_cstr_fail (sb : SerializeBuffer) (pf cs : Nat)
    (h : sb.fail = true) : (sb.try_read_cstr pf cs).2.fail = true := by
  have hp := try_peek_num_fail sb pf h
  unfold try_read_cstr
  rcases hpe : sb.try_peek_num pf with ⟨o, sb1⟩
  rw [hpe] at hp
  cases o with
  | none => simpa using hp
  | some len =>
    simp only
    split
    · simp
    · simpa using hp

theorem try_resize_fail (sb : SerializeBuffer) (n : Nat)
    (h : sb.fail = true) : (sb.try_resize n).2.fail = true := by
  simp only [try_resize]
  split <;> simp [h]

end SerializeBuffer

/-- Claim C9: the fail flag is sticky.  It is set by any short read or
write; once set, every operation other than `clear()` — including
successful reads, writes and `try_resize` — leaves it set; `clear()`
resets both cursors to 0 and clears the flag (touching nothing else). -/
theorem c9_sticky_fail (sb : SerializeBuffer) :
    (∀ op : SbOp, op ≠ SbOp.clear → sb.fail = true →
      (sbStep sb op).fail = true) ∧
    (sbStep sb SbOp.clear).pos_read = 0 ∧
    (sbStep sb SbOp.clear).pos_write = 0 ∧
    (sbStep sb SbOp.clear).fail = false ∧
    (sbStep sb SbOp.clear).buffer = sb.buffer ∧
    (sbStep sb SbOp.clear).capacity = sb.capacity ∧
    (∀ data : List Nat, data.length > sb.available_space →
      (sb.try_write data).2.fail = true) ∧
    (∀ n : Nat, n > sb.used_space → (sb.try_read n).2.fail = true) := by
  refine ⟨?_, rfl, rfl, rfl, rfl, rfl, ?_, ?_⟩
  · intro op hne hf
    cases op with
    | writeBytes d => exact SerializeBuffer.try_write_fail sb d hf
    | readBytes n => exact SerializeBuffer.try_read_fail sb n hf
    | peekBytes n => exact SerializeBuffer.try_peek_fail sb n hf
    | writeNum k v => exact SerializeBuffer.try_write_num_fail sb k v hf
    | readNum k => exact SerializeBuffer.try_read_num_fail sb k hf
    | writeStr pf cs us => exact SerializeBuffer.try_write_str_fail sb pf cs us hf
    | readStr pf cs => exact SerializeBuffer.try_read_str_fail sb pf cs hf
    | readCStr pf cs => exact SerializeBuffer.try_read_cstr_fail sb pf cs hf
    | resize n => exact SerializeBuffer.try_resize_fail sb n hf
    | clear => exact absurd rfl hne
  · intro data h
    simp [SerializeBuffer.try_write, h]
  · intro n h
    simp [SerializeBuffer.try_read, SerializeBuffer.try_peek, h]

/-- Witness for C9 at concrete inputs: on a failed zero-capacity buffer,
`try_resize 5` (a successful operation) keeps the flag set; a short write
on a clean buffer sets the flag. -/
theorem c9_sticky_fail_witness :
    (sbStep ⟨[], 0, 0, 0, true⟩ (SbOp.resize 5)).fail = true ∧
    ((⟨[], 0, 0, 0, false⟩ : SerializeBuffer).try_write [7]).2.fail = true :=
  ⟨(c9_sticky_fail ⟨[], 0, 0, 0, true⟩).1 (SbOp.resize 5) (by decide) rfl,
   (c9_sticky_fail ⟨[], 0, 0, 0, false⟩).2.2.2.2.2.2.1 [7] (by decide)⟩

/-- Claim C10: a failed `try_peek` latches the sticky fail flag even
though `try_peek` is a const operation: for `n > used_space()` it returns
false, sets the flag (through the `mutable` member) and leaves both
cursors unchanged; a successful peek copies the window without advancing
the read cursor and leaves the entire state (including the flag)
unchanged.  The typed peek overload inherits both behaviours. -/
theorem c10_peek_latches_fail (sb : SerializeBuffer) (n : Nat) :
    (n > sb.used_space →
      (sb.try_peek n).1 = none ∧ (sb.try_peek n).2.fail = true ∧
      (sb.try_peek n).2.pos_read = sb.pos_read ∧
      (sb.try_peek n).2.pos_write = sb.pos_write ∧
      (sb.try_peek_num n).1 = none ∧ (sb.try_peek_num n).2.fail = true) ∧
    (n ≤ sb.used_space →
      (sb.try_peek n).1 = some (sb.peekWindow n) ∧ (sb.try_peek n).2 = sb) := by
  constructor
  · intro h
    simp [SerializeBuffer.try_peek, SerializeBuffer.try_peek_num, h]
  · intro h
    simp [SerializeBuffer.try_peek, Nat.not_lt.mpr h]

/-- Witness for C10 at a concrete input: a buffer with 2 unread bytes; a
5-byte peek fails and latches the flag, a 2-byte peek leaves the state
untouched. -/
theorem c10_peek_latches_fail_witness :
    ((⟨[1, 2, 3], 3, 0, 2, false⟩ : SerializeBuffer).try_peek 5).2.fail = true ∧
    ((⟨[1, 2, 3], 3, 0, 2, false⟩ : SerializeBuffer).try_peek 2).2 =
      ⟨[1, 2, 3], 3, 0, 2, false⟩ :=
  ⟨((c10_peek_latches_fail ⟨[1, 2, 3], 3, 0, 2, false⟩ 5).1 (by decide)).2.1,
   ((c10_peek_latches_fail ⟨[1, 2, 3], 3, 0, 2, false⟩ 2).2 (by decide)).2⟩

theorem wrapDiff_eq {cap r w : Nat} (hr : r < cap) (hw : w < cap) :
    (cap + w - r) % cap = if r ≤ w then w - r else cap + w - r := by
  rcases Nat.lt_or_ge w r with h | h
  · rw [if_neg (by omega), Nat.mod_eq_of_lt (by omega)]
  · rw [if_pos h]
    have h1 : cap + w - r = w - r + cap := by omega
    rw [h1, Nat.add_mod_right, Nat.mod_eq_of_lt (by omega)]

namespace RingQueue

variable {α : Type}

theorem size_eq {q : RingQueue α} (hwf : q.Wf) :
    q.size = if q.read_idx ≤ q.write_idx then q.write_idx - q.read_idx
      else q.capacity_plus_one + q.write_idx - q.read_idx := by
  obtain ⟨_, hpos, hr, hw⟩ := hwf
  exact wrapDiff_eq hr hw

theorem size_lt {q : RingQueue α} (hwf : q.Wf) : q.size < q.capacity_plus_one := by
  obtain ⟨_, hpos, hr, hw⟩ := hwf
  exact Nat.mod_lt _ hpos

theorem full_iff {q : RingQueue α} (hwf : q.Wf) :
    q.full = true ↔ q.size = q.capacity := by
  obtain ⟨hlen, hpos, hr, hw⟩ := hwf
  unfold full move_idx capacity
  rw [beq_iff_eq]
  have h1 : q.write_idx + 1 + q.capacity_plus_one =
      (q.write_idx + 1) + q.capacity_plus_one := by omega
  rw [h1, Nat.add_mod_right, size_eq ⟨hlen, hpos, hr, hw⟩]
  rcases Nat.lt_or_ge (q.write_idx + 1) q.capacity_plus_one with hlt | hge
  · rw [Nat.mod_eq_of_lt hlt]
    split <;> omega
  · have hwe : q.write_idx + 1 = q.capacity_plus_one := by omega
    rw [hwe, Nat.mod_self]
    split <;> omega

theorem contents_length (q : RingQueue α) : (contents q).length = q.size := by
  simp [contents]

theorem contents_front (A : List (Option α)) (s : Nat) (hA : A.length = s) :
    contents (⟨A ++ [none], s + 1, 0, s⟩ : RingQueue α) = A := by
  have hsz : (⟨A ++ [none], s + 1, 0, s⟩ : RingQueue α).size = s := by
    show (s + 1 + s - 0) % (s + 1) = s
    have h1 : s + 1 + s - 0 = s + (s + 1) := by omega
    rw [h1, Nat.add_mod_right, Nat.mod_eq_of_lt (by omega)]
  unfold contents
  rw [hsz]
  apply List.ext_getElem?
  intro j
  rcases Nat.lt_or_ge j s with hj | hj
  · have hjA : j < A.length := by omega
    rw [List.getElem?_map, List.getElem?_range hj]
    have hmod : (0 + j) % (s + 1) = j := by
      rw [Nat.zero_add, Nat.mod_eq_of_lt (by omega)]
    simp only [Option.map_some']
    show some ((A ++ [none]).getD ((0 + j) % (s + 1)) none) = A[j]?
    rw [hmod, List.getD_eq_getElem?_getD, List.getElem?_append_left hjA,
      List.getElem?_eq_getElem hjA]
    rfl
  · have h1 : ((List.range s).map
        (fun i => (A ++ [none]).getD ((0 + i) % (s + 1)) none)).length ≤ j := by
      simp [hj]
    have h2 : A.length ≤ j := by omega
    rw [List.getElem?_eq_none h1, List.getElem?_eq_none h2]

theorem contents_resize_size {q : RingQueue α} (_hwf : q.Wf) :
    contents (q.resize q.size) = contents q := by
  by_cases hs : q.size = 0
  · have hres : q.resize q.size = ⟨[], 1, 0, 0⟩ := by
      rw [hs]; simp [resize]
    have hl : contents (⟨[], 1, 0, 0⟩ : RingQueue α) = [] := by
      simp [contents, size]
    have hr2 : contents q = [] := by
      unfold contents
      rw [hs]
      rfl
    rw [hres, hl, hr2]
  · have hone : q.size + 1 - q.size = 1 := by omega
    have hres : q.resize q.size =
        ⟨contents q ++ [none], q.size + 1, 0, q.size⟩ := by
      unfold resize
      rw [if_neg hs]
      simp [hone]
    rw [hres]
    exact contents_front _ _ (contents_length q)

theorem capacity_resize (q : RingQueue α) (n : Nat) :
    (q.resize n).capacity = n := by
  unfold resize
  split <;> simp_all [capacity]

end RingQueue

/-- Claim C8: `try_resize_buffer(new_cap)` returns false exactly when
`new_cap < size()`; for `size() ≤ new_cap ≤ capacity()` it returns true
and changes nothing (grow-only); `shrink_to_fit()` with `size() <
capacity()` reallocates so that `capacity() = size()`, preserving the FIFO
element order.  Concretely, with capacity 5 holding 1, 2, 3, 4:
`try_resize_buffer(4)` returns true with capacity still 5, and
`shrink_to_fit()` then yields capacity 4 and `full() = true` with the same
elements. -/
theorem c8_ring_queue_resize :
    (∀ (q : RingQueue Nat) (n : Nat),
      (q.try_resize_buffer n).1 = false ↔ n < q.size) ∧
    (∀ (q : RingQueue Nat) (n : Nat), q.size ≤ n → n ≤ q.capacity →
      q.try_resize_buffer n = (true, q)) ∧
    (∀ q : RingQueue Nat, q.Wf → q.size < q.capacity →
      q.shrink_to_fit.capacity = q.size ∧
      RingQueue.contents q.shrink_to_fit = RingQueue.contents q) ∧
    ((c8q4.try_resize_buffer 4 = (true, c8q4)) ∧ c8q4.capacity = 5 ∧
      c8q4.shrink_to_fit.capacity = 4 ∧ c8q4.shrink_to_fit.full = true ∧
      RingQueue.contents c8q4.shrink_to_fit = [some 1, some 2, some 3, some 4] ∧
      RingQueue.contents c8q4 = [some 1, some 2, some 3, some 4]) := by
  refine ⟨?_, ?_, ?_, by decide⟩
  · intro q n
    unfold RingQueue.try_resize_buffer
    split
    · simp_all
    · split <;> simp_all
  · intro q n h1 h2
    unfold RingQueue.try_resize_buffer
    rw [if_neg (by omega), if_pos h2]
  · intro q hwf hlt
    have hnotfull : ¬ q.full = true := by
      rw [RingQueue.full_iff hwf]; omega
    have hshr : q.shrink_to_fit = q.resize q.size := by
      unfold RingQueue.shrink_to_fit
      rw [if_neg hnotfull]
    rw [hshr, RingQueue.capacity_resize]
    exact ⟨rfl, RingQueue.contents_resize_size hwf⟩

namespace TaggedPtr

theorem testBit_LOWER (LB i : Nat) :
    (LOWER_TAG_MASK LB).testBit i = decide (i < LB) := by
  simp [LOWER_TAG_MASK, Nat.one_shiftLeft]

theorem testBit_UPPER {V : Nat} (hV : V ≤ 64) (i : Nat) :
    (UPPER_TAG_MASK V).testBit i = (decide (V ≤ i) && decide (i < 64)) := by
  simp only [UPPER_TAG_MASK, Nat.testBit_shiftLeft, Nat.one_shiftLeft,
    Nat.testBit_two_pow_sub_one, ge_iff_le]
  by_cases h1 : V ≤ i
  · simp [h1, decide_eq_decide]
    omega
  · simp [h1]

theorem testBit_shiftedUpper {V LB : Nat} (hVL : LB ≤ V) (hV : V ≤ 64)
    (i : Nat) :
    ((UPPER_TAG_MASK V) >>> (V - LB)).testBit i =
      (decide (LB ≤ i) && decide (i < 64 - V + LB)) := by
  rw [Nat.testBit_shiftRight, testBit_UPPER hV, ← Bool.decide_and,
    ← Bool.decide_and, decide_eq_decide]
  omega

theorem testBit_TAG {V : Nat} (LB : Nat) (hV : V ≤ 64) (i : Nat) :
    (TAG_MASK V LB).testBit i =
      ((decide (V ≤ i) && decide (i < 64)) || decide (i < LB)) := by
  simp [TAG_MASK, testBit_UPPER hV, testBit_LOWER]

theorem testBit_NOT {V LB : Nat} (hVL : LB ≤ V) (hV : V ≤ 64) (i : Nat) :
    (NOT_TAG_MASK V LB).testBit i = (decide (LB ≤ i) && decide (i < V)) := by
  simp only [NOT_TAG_MASK, Nat.testBit_xor, testBit_TAG LB hV,
    Nat.testBit_two_pow_sub_one]
  rcases Nat.lt_or_ge i LB with h1 | h1
  · rcases Nat.lt_or_ge i V with h2 | h2
    · simp [h1, h2, show i < 64 from by omega, show ¬ V ≤ i from by omega,
        show ¬ LB ≤ i from by omega]
    · exact absurd h2 (by omega)
  · rcases Nat.lt_or_ge i V with h2 | h2
    · simp [h1, h2, show i < 64 from by omega, show ¬ V ≤ i from by omega,
        show ¬ i < LB from by omega]
    · rcases Nat.lt_or_ge i 64 with h3 | h3
      · simp [h1, h2, h3, show ¬ i < LB from by omega,
          show ¬ i < V from by omega]
      · simp [h1, h2, show ¬ i < 64 from by omega,
          show ¬ i < LB from by omega, show ¬ i < V from by omega]

theorem get_ptr_set_tag {V LB : Nat} (hVL : LB ≤ V) (hV : V ≤ 64)
    (v w : Nat) :
    get_ptr V LB (set_tag V LB v w) = get_ptr V LB w := by
  apply Nat.eq_of_testBit_eq
  intro i
  simp only [get_ptr, set_tag, Nat.testBit_or, Nat.testBit_and,
    Nat.testBit_shiftLeft, testBit_NOT hVL hV, testBit_LOWER,
    testBit_shiftedUpper hVL hV, ge_iff_le]
  rcases Nat.lt_or_ge i LB with h1 | h1
  · simp [show ¬ LB ≤ i from by omega]
  · rcases Nat.lt_or_ge i V with h2 | h2
    · rcases Nat.lt_or_ge i (V - LB) with h4 | h4
      · simp [h1, h2, show ¬ V - LB ≤ i from by omega,
          show ¬ i < LB from by omega]
      · simp [h1, h2, h4, show ¬ i < LB from by omega,
          show ¬ LB ≤ i - (V - LB) from by omega]
    · simp [show ¬ i < V from by omega]

theorem get_tag_set_tag {V LB : Nat} (hVL : LB ≤ V) (hV : V ≤ 64)
    (v w : Nat) :
    get_tag V LB (set_tag V LB v w) = v % 2 ^ (64 - V + LB) := by
  apply Nat.eq_of_testBit_eq
  intro i
  simp only [get_tag, set_tag, Nat.testBit_or, Nat.testBit_and,
    Nat.testBit_shiftLeft, Nat.testBit_shiftRight, testBit_NOT hVL hV,
    testBit_LOWER, testBit_shiftedUpper hVL hV, testBit_UPPER hV,
    Nat.testBit_mod_two_pow, ge_iff_le]
  rw [show V - LB + i - (V - LB) = i from by omega]
  rcases Nat.lt_or_ge i LB with h1 | h1
  · rcases Nat.lt_or_ge i (V - LB) with h4 | h4
    · simp [h1, show ¬ LB ≤ i from by omega,
        show ¬ V ≤ V - LB + i from by omega,
        show ¬ V - LB ≤ i from by omega,
        show i < 64 - V + LB from by omega]
    · simp [h1, h4, show ¬ LB ≤ i from by omega,
        show ¬ V ≤ V - LB + i from by omega,
        show ¬ LB ≤ i - (V - LB) from by omega,
        show i < 64 - V + LB from by omega]
  · rcases Nat.lt_or_ge i (64 - V + LB) with h5 | h5
    · simp [h1, h5, show ¬ i < LB from by omega,
        show V ≤ V - LB + i from by omega,
        show V - LB + i < 64 from by omega,
        show ¬ V - LB + i < V from by omega,
        show V - LB ≤ V - LB + i from by omega,
        show ¬ V - LB + i < LB from by omega]
    · simp [show ¬ i < LB from by omega,
        show ¬ V - LB + i < 64 from by omega,
        show ¬ i < 64 - V + LB from by omega]

theorem set_tag_get_tag_self {V LB : Nat} (hVL : LB ≤ V) (hV : V ≤ 64)
    {w : Nat} (hw : w < 2 ^ 64) :
    set_tag V LB (get_tag V LB w) w = w := by
  apply Nat.eq_of_testBit_eq
  intro i
  rcases Nat.lt_or_ge i 64 with h64 | h64
  · simp only [get_tag, set_tag, Nat.testBit_or, Nat.testBit_and,
      Nat.testBit_shiftLeft, Nat.testBit_shiftRight, testBit_NOT hVL hV,
      testBit_LOWER, testBit_shiftedUpper hVL hV, testBit_UPPER hV,
      ge_iff_le]
    rcases Nat.lt_or_ge i LB with h1 | h1
    · rcases Nat.lt_or_ge i (V - LB) with h4 | h4
      · simp [h1, h64, show ¬ LB ≤ i from by omega,
          show ¬ V ≤ V - LB + i from by omega,
          show ¬ V - LB ≤ i from by omega]
      · simp [h1, h4, h64, show ¬ LB ≤ i from by omega,
          show ¬ V ≤ V - LB + i from by omega,
          show ¬ LB ≤ i - (V - LB) from by omega]
    · rcases Nat.lt_or_ge i V with h2 | h2
      · rcases Nat.lt_or_ge i (V - LB) with h4 | h4
        · simp [h1, h2, show ¬ i < LB from by omega,
            show ¬ V - LB ≤ i from by omega]
        · simp [h1, h2, h4, show ¬ i < LB from by omega,
            show ¬ LB ≤ i - (V - LB) from by omega]
      · rw [show V - LB + (i - (V - LB)) = i from by omega]
        simp [h2, h64, show ¬ i < LB from by omega,
          show ¬ i < V from by omega,
          show V - LB ≤ i from by omega,
          show LB ≤ i - (V - LB) from by omega,
          show i - (V - LB) < 64 - V + LB from by omega,
          show V ≤ i from h2, show ¬ i - (V - LB) < LB from by omega]
  · have hwi : w.testBit i = false :=
      Nat.testBit_lt_two_pow
        (lt_of_lt_of_le hw (Nat.pow_le_pow_right (by omega) h64))
    simp only [get_tag, set_tag, Nat.testBit_or, Nat.testBit_and,
      Nat.testBit_shiftLeft, Nat.testBit_shiftRight, testBit_NOT hVL hV,
      testBit_LOWER, testBit_shiftedUpper hVL hV, testBit_UPPER hV,
      ge_iff_le, hwi]
    simp [show ¬ i < V from by omega, show ¬ i < LB from by omega,
      show ¬ i - (V - LB) < 64 - V + LB from by omega]

theorem set_tag_set_tag {V LB : Nat} (hVL : LB ≤ V) (hV : V ≤ 64)
    (a b w : Nat) :
    set_tag V LB a (set_tag V LB b w) = set_tag V LB a w := by
  have h : set_tag V LB b w &&& NOT_TAG_MASK V LB =
      w &&& NOT_TAG_MASK V LB := get_ptr_set_tag hVL hV b w
  show set_tag V LB b w &&& NOT_TAG_MASK V LB |||
      (((a &&& (UPPER_TAG_MASK V >>> (V - LB))) <<< (V - LB)) |||
        (a &&& LOWER_TAG_MASK LB)) =
    w &&& NOT_TAG_MASK V LB |||
      (((a &&& (UPPER_TAG_MASK V >>> (V - LB))) <<< (V - LB)) |||
        (a &&& LOWER_TAG_MASK LB))
  rw [h]

theorem set_tag_congr_mod {V LB : Nat} (hVL : LB ≤ V) (hV : V ≤ 64)
    {a b : Nat} (w : Nat)
    (h : a % 2 ^ (64 - V + LB) = b % 2 ^ (64 - V + LB)) :
    set_tag V LB a w = set_tag V LB b w := by
  have hbit : ∀ j, j < 64 - V + LB → a.testBit j = b.testBit j := by
    intro j hj
    have hc := congrArg (fun x => Nat.testBit x j) h
    simpa [Nat.testBit_mod_two_pow, hj] using hc
  apply Nat.eq_of_testBit_eq
  intro i
  simp only [set_tag, Nat.testBit_or, Nat.testBit_and, Nat.testBit_shiftLeft,
    testBit_NOT hVL hV, testBit_LOWER, testBit_shiftedUpper hVL hV, ge_iff_le]
  rcases Nat.lt_or_ge (i - (V - LB)) (64 - V + LB) with hA | hA
  · rw [hbit _ hA]
    rcases Nat.lt_or_ge i LB with hB | hB
    · rw [hbit i (by omega)]
    · simp [show ¬ i < LB from by omega]
  · simp [show ¬ i - (V - LB) < 64 - V + LB from by omega,
      show ¬ i < LB from by omega]

theorem get_tag_lt {V LB : Nat} (hVL : LB ≤ V) (hV : V ≤ 64) {w : Nat}
    (hw : w < 2 ^ 64) : get_tag V LB w < 2 ^ (64 - V + LB) := by
  unfold get_tag
  apply Nat.or_lt_two_pow
  · rw [Nat.shiftRight_eq_div_pow]
    apply Nat.div_lt_of_lt_mul
    calc w &&& UPPER_TAG_MASK V < 2 ^ 64 :=
        lt_of_le_of_lt Nat.and_le_left hw
      _ = 2 ^ (V - LB) * 2 ^ (64 - V + LB) := by
        rw [← pow_add]
        congr 1
        omega
  · have hpos : 0 < 2 ^ LB := Nat.two_pow_pos LB
    calc w &&& LOWER_TAG_MASK LB ≤ LOWER_TAG_MASK LB := Nat.and_le_right
      _ < 2 ^ LB := by
        unfold LOWER_TAG_MASK
        rw [Nat.one_shiftLeft]
        omega
      _ ≤ 2 ^ (64 - V + LB) := Nat.pow_le_pow_right (by omega) (by omega)

theorem increase_tag_iterate {V LB : Nat} (hVL : LB ≤ V) (hV : V ≤ 64)
    (w : Nat) :
    ∀ n : Nat, (increase_tag V LB)^[n + 1] w =
      set_tag V LB (get_tag V LB w + (n + 1)) w := by
  intro n
  induction n with
  | zero =>
    rw [Function.iterate_one]
    rfl
  | succ n ih =>
    rw [Function.iterate_succ_apply', ih]
    show set_tag V LB
        (get_tag V LB (set_tag V LB (get_tag V LB w + (n + 1)) w) + 1)
        (set_tag V LB (get_tag V LB w + (n + 1)) w) = _
    rw [set_tag_set_tag hVL hV, get_tag_set_tag hVL hV]
    apply set_tag_congr_mod hVL hV
    conv_lhs => rw [Nat.add_mod, Nat.mod_mod]
    conv_rhs => rw [show get_tag V LB w + (n + 1 + 1) =
      get_tag V LB w + (n + 1) + 1 from by omega, Nat.add_mod]

end TaggedPtr

/-- Claim C5: for every packed 64-bit tagged-pointer word `w` and every
tag value `v` (virtual-address width `V`, alignment `2 ^ LB`):
`set_tag(get_tag())` is the identity on the word; `get_ptr()` is invariant
under `set_tag(v)` and under `increase_tag()`; the tag observed after
`set_tag(v)` is `v` modulo `2 ^ (UPPER_TAG_BITS + LOWER_TAG_BITS)` (bits
beyond the tag width are silently truncated); and iterating
`increase_tag()` cycles the word with period `2 ^ tag_width`. -/
theorem c5_tagged_ptr (V LB v w : Nat) (hVL : LB ≤ V) (hV : V ≤ 64)
    (hw : w < 2 ^ 64) :
    TaggedPtr.set_tag V LB (TaggedPtr.get_tag V LB w) w = w ∧
    TaggedPtr.get_ptr V LB (TaggedPtr.set_tag V LB v w) =
      TaggedPtr.get_ptr V LB w ∧
    TaggedPtr.get_ptr V LB (TaggedPtr.increase_tag V LB w) =
      TaggedPtr.get_ptr V LB w ∧
    TaggedPtr.get_tag V LB (TaggedPtr.set_tag V LB v w) =
      v % 2 ^ (TaggedPtr.UPPER_TAG_BITS V + TaggedPtr.LOWER_TAG_BITS LB) ∧
    (TaggedPtr.increase_tag V LB)^[2 ^ (TaggedPtr.UPPER_TAG_BITS V +
      TaggedPtr.LOWER_TAG_BITS LB)] w = w := by
  refine ⟨TaggedPtr.set_tag_get_tag_self hVL hV hw,
    TaggedPtr.get_ptr_set_tag hVL hV v w,
    TaggedPtr.get_ptr_set_tag hVL hV _ w, ?_, ?_⟩
  · rw [TaggedPtr.get_tag_set_tag hVL hV v w]
    rfl
  · have hpos : 0 < 2 ^ (64 - V + LB) := Nat.two_pow_pos _
    have hiter := TaggedPtr.increase_tag_iterate hVL hV w (2 ^ (64 - V + LB) - 1)
    rw [show 2 ^ (64 - V + LB) - 1 + 1 = 2 ^ (64 - V + LB) from by omega]
      at hiter
    have hexp : 2 ^ (TaggedPtr.UPPER_TAG_BITS V + TaggedPtr.LOWER_TAG_BITS LB) =
        2 ^ (64 - V + LB) := rfl
    rw [hexp, hiter,
      TaggedPtr.set_tag_congr_mod hVL hV w
        (Nat.add_mod_right (TaggedPtr.get_tag V LB w) (2 ^ (64 - V + LB))),
      TaggedPtr.set_tag_get_tag_self hVL hV hw]

theorem spliceAt_length {buf data : List Nat} {p : Nat}
    (h : p + data.length ≤ buf.length) :
    (spliceAt buf p data).length = buf.length := by
  unfold spliceAt
  simp only [List.length_append, List.length_take, List.length_drop]
  omega

theorem spliceAt_getElem? {buf data : List Nat} {p : Nat}
    (h : p + data.length ≤ buf.length) (j : Nat) :
    (spliceAt buf p data)[j]? =
      if j < p then buf[j]?
      else if j < p + data.length then data[j - p]?
      else buf[j]? := by
  have hmin : (buf.take p).length = p := by
    simp only [List.length_take]
    omega
  unfold spliceAt
  rw [List.getElem?_append, List.getElem?_append, List.length_append, hmin,
    List.getElem?_drop]
  rcases Nat.lt_or_ge j p with h1 | h1
  · rw [if_pos (show j < p + data.length by omega), if_pos h1, if_pos h1,
      List.getElem?_take_of_lt h1]
  · rcases Nat.lt_or_ge j (p + data.length) with h2 | h2
    · rw [if_pos h2, if_neg (by omega), if_neg (by omega), if_pos h2]
    · rw [if_neg (by omega), if_neg (by omega), if_neg (by omega),
        show p + data.length + (j - (p + data.length)) = j from by omega]

theorem rot_getElem {buf : List Nat} {cap r : Nat} (hlen : buf.length = cap)
    (hr : r < cap) (i : Nat) :
    (buf.drop r ++ buf.take r)[i]? =
      if i < cap - r then buf[r + i]?
      else if i < cap then buf[i - (cap - r)]? else none := by
  rw [List.getElem?_append, List.length_drop, hlen]
  rcases Nat.lt_or_ge i (cap - r) with h1 | h1
  · rw [if_pos h1, if_pos h1, List.getElem?_drop]
  · rw [if_neg (by omega), if_neg (by omega)]
    rcases Nat.lt_or_ge i cap with h2 | h2
    · rw [if_pos h2, List.getElem?_take_of_lt (by omega)]
    · rw [if_neg (by omega)]
      apply List.getElem?_eq_none
      rw [List.length_take]
      omega

namespace Spsc

theorem try_write_eq {s : Spsc} {data : List Nat}
    (hlen : data.length ≤ s.available_write) :
    s.try_write data =
      (true, { s with
        buffer :=
          if data.length ≤ s.consecutive_write_length
          then spliceAt s.buffer s.pos_write data
          else spliceAt (spliceAt s.buffer s.pos_write
              (data.take s.consecutive_write_length)) 0
              (data.drop s.consecutive_write_length),
        pos_write := (s.pos_write + data.length + s.capacity) % s.capacity }) := by
  simp only [try_write, move_write_pos]
  rw [if_neg (by omega)]

theorem readable_length {s : Spsc} (hwf : s.Wf) :
    (readable s).length = s.available_read := by
  obtain ⟨hbl, hcap, hr, hw⟩ := hwf
  have havail : s.available_read < s.capacity := Nat.mod_lt _ hcap
  unfold readable
  rw [List.length_take, List.length_append, List.length_drop,
    List.length_take, hbl]
  omega

theorem try_peek_eq {s : Spsc} (hwf : s.Wf) {n : Nat}
    (hn : n ≤ s.available_read) :
    s.try_peek n = some ((readable s).take n) := by
  obtain ⟨hbl, hcap, hr, hw⟩ := hwf
  have havail : s.available_read < s.capacity := Nat.mod_lt _ hcap
  set a := s.available_read with ha
  have hdl : (s.buffer.drop s.pos_read).length = s.capacity - s.pos_read := by
    rw [List.length_drop, hbl]
  have hrt : (readable s).take n =
      ((s.buffer.drop s.pos_read) ++ s.buffer.take s.pos_read).take n := by
    unfold readable
    rw [List.take_take, Nat.min_eq_left hn]
  unfold try_peek
  rw [if_neg (by omega), hrt]
  set cl := s.consecutive_read_length with hcl
  have hclval : cl = min (s.capacity - s.pos_read) a := rfl
  rcases Nat.lt_or_ge cl n with hc | hc
  · have hcl2 : cl = s.capacity - s.pos_read := by omega
    rw [if_neg (by omega)]
    have e1 : (s.buffer.drop s.pos_read).take cl = s.buffer.drop s.pos_read := by
      apply List.take_of_length_le
      omega
    have e2 : ((s.buffer.drop s.pos_read) ++ s.buffer.take s.pos_read).take n =
        s.buffer.drop s.pos_read ++ s.buffer.take (n - cl) := by
      rw [List.take_append_eq_append_take,
        List.take_of_length_le (by omega), hdl, List.take_take,
        Nat.min_eq_left (by omega), hcl2]
    rw [e1, e2]
  · rw [if_pos hc]
    congr 1
    rw [List.take_append_of_le_length (by omega)]

theorem try_write_buffer_getElem {s : Spsc} {data : List Nat} (hwf : s.Wf)
    (hlen : data.length ≤ s.available_write) {j : Nat} (hj : j < s.capacity) :
    ((s.try_write data).2.buffer)[j]? =
      if (s.capacity + j - s.pos_write) % s.capacity < data.length
      then data[(s.capacity + j - s.pos_write) % s.capacity]?
      else s.buffer[j]? := by
  obtain ⟨hbl, hcap, hr, hw⟩ := hwf
  have havail : s.available_read < s.capacity := Nat.mod_lt _ hcap
  have hAW : s.available_write = s.capacity - 1 - s.available_read := rfl
  set a := s.available_read with ha
  have hd := @wrapDiff_eq s.capacity s.pos_write j hw hj
  rw [try_write_eq hlen]
  simp only
  set cl := s.consecutive_write_length with hcl
  have hclval : cl = min (s.capacity - s.pos_write) s.available_write := rfl
  rcases Nat.lt_or_ge cl data.length with hph | hph
  · -- two-phase copy
    have hcl2 : cl = s.capacity - s.pos_write := by omega
    rw [if_neg (by omega)]
    have hinlen : (spliceAt s.buffer s.pos_write (data.take cl)).length =
        s.capacity := by
      rw [spliceAt_length (by rw [List.length_take]; omega), hbl]
    rw [spliceAt_getElem? (by rw [hinlen, List.length_drop]; omega) j]
    rcases Nat.lt_or_ge j (data.length - cl) with hz1 | hz1
    · have hjw : j < s.pos_write := by omega
      have hde : (s.capacity + j - s.pos_write) % s.capacity = cl + j := by
        rw [hd, if_neg (by omega)]
        omega
      rw [if_neg (by omega), if_pos (by simp; omega), List.getElem?_drop, hde,
        if_pos (by omega)]
      simp
    · rw [if_neg (by omega), if_neg (by simp; omega)]
      rw [spliceAt_getElem? (by rw [List.length_take, hbl]; omega) j]
      rcases Nat.lt_or_ge j s.pos_write with hz2 | hz2
      · have hde : (s.capacity + j - s.pos_write) % s.capacity = cl + j := by
          rw [hd, if_neg (by omega)]
          omega
        rw [if_pos hz2, hde, if_neg (by omega)]
      · have hde : (s.capacity + j - s.pos_write) % s.capacity =
            j - s.pos_write := by
          rw [hd, if_pos (by omega)]
        rw [if_neg (by omega), if_pos (by rw [List.length_take]; omega),
          List.getElem?_take_of_lt (by omega), hde, if_pos (by omega)]
  · -- one-phase copy
    rw [if_pos hph]
    rw [spliceAt_getElem? (by omega) j]
    rcases Nat.lt_or_ge j s.pos_write with hz2 | hz2
    · have hde : (s.capacity + j - s.pos_write) % s.capacity =
          s.capacity + j - s.pos_write := by
        rw [hd, if_neg (by omega)]
      rw [if_pos hz2, hde, if_neg (by omega)]
    · have hde : (s.capacity + j - s.pos_write) % s.capacity =
          j - s.pos_write := by
        rw [hd, if_pos (by omega)]
      rcases Nat.lt_or_ge j (s.pos_write + data.length) with hz3 | hz3
      · rw [if_neg (by omega), if_pos hz3, hde, if_pos (by omega)]
      · rw [if_neg (by omega), if_neg (by omega), hde, if_neg (by omega)]

theorem try_write_fields {s : Spsc} {data : List Nat}
    (hlen : data.length ≤ s.available_write) :
    (s.try_write data).1 = true ∧
    (s.try_write data).2.pos_read = s.pos_read ∧
    (s.try_write data).2.capacity = s.capacity ∧
    (s.try_write data).2.pos_write =
      (s.pos_write + data.length) % s.capacity := by
  rw [try_write_eq hlen]
  refine ⟨rfl, rfl, rfl, ?_⟩
  show (s.pos_write + data.length + s.capacity) % s.capacity = _
  rw [Nat.add_mod_right]

theorem try_write_buffer_length {s : Spsc} (hwf : s.Wf) {data : List Nat}
    (hlen : data.length ≤ s.available_write) :
    (s.try_write data).2.buffer.length = s.capacity := by
  obtain ⟨hbl, hcap, hr, hw⟩ := hwf
  have havail : s.available_read < s.capacity := Nat.mod_lt _ hcap
  have hAW : s.available_write = s.capacity - 1 - s.available_read := rfl
  set a := s.available_read with ha
  rw [try_write_eq hlen]
  simp only
  set cl := s.consecutive_write_length with hcl
  have hclval : cl = min (s.capacity - s.pos_write) s.available_write := rfl
  split
  · rw [spliceAt_length (by omega)]
    exact hbl
  · rw [spliceAt_length, spliceAt_length (by rw [List.length_take]; omega)]
    · exact hbl
    · rw [spliceAt_length (by rw [List.length_take]; omega), hbl,
        List.length_drop]
      omega

theorem available_read_after_write {s : Spsc} (hwf : s.Wf) {data : List Nat}
    (hlen : data.length ≤ s.available_write) :
    (s.try_write data).2.available_read =
      s.available_read + data.length := by
  obtain ⟨hbl, hcap, hr, hw⟩ := hwf
  have hAW : s.available_write = s.capacity - 1 - s.available_read := rfl
  have havv : s.available_read < s.capacity := Nat.mod_lt _ hcap
  obtain ⟨-, hpr, hpc, hpw⟩ := try_write_fields hlen
  have hL : (s.try_write data).2.available_read =
      ((s.capacity + s.pos_write - s.pos_read) + data.length) % s.capacity := by
    unfold available_read
    rw [hpr, hpc, hpw]
    have h1 : s.capacity + (s.pos_write + data.length) % s.capacity -
        s.pos_read = (s.capacity - s.pos_read) +
          (s.pos_write + data.length) % s.capacity := by
      have : (s.pos_write + data.length) % s.capacity < s.capacity :=
        Nat.mod_lt _ hcap
      omega
    rw [h1, Nat.add_mod_mod,
      show s.capacity - s.pos_read + (s.pos_write + data.length) =
        (s.capacity + s.pos_write - s.pos_read) + data.length from by omega]
  rw [hL]
  set A := s.capacity + s.pos_write - s.pos_read with hA
  have havm : s.available_read = A % s.capacity := rfl
  have hAlt : A < 2 * s.capacity := by omega
  have hsum : s.available_read + data.length ≤ s.capacity - 1 := by omega
  rcases Nat.lt_or_ge A s.capacity with hlt | hge
  · have hv : s.available_read = A := by rw [havm, Nat.mod_eq_of_lt hlt]
    rw [Nat.mod_eq_of_lt (by omega), hv]
  · have hv : s.available_read = A - s.capacity := by
      rw [havm, Nat.mod_eq_sub_mod hge, Nat.mod_eq_of_lt (by omega)]
    rw [Nat.mod_eq_sub_mod (by omega),
      show A + data.length - s.capacity = (A - s.capacity) + data.length
        from by omega, Nat.mod_eq_of_lt (by omega), hv]

theorem readable_write {s : Spsc} (hwf : s.Wf) {data : List Nat}
    (hlen : data.length ≤ s.available_write) :
    readable (s.try_write data).2 = readable s ++ data := by
  obtain ⟨hbl, hcap, hr, hw⟩ := hwf
  have hAW : s.available_write = s.capacity - 1 - s.available_read := rfl
  have havv : s.available_read < s.capacity := Nat.mod_lt _ hcap
  have havm : s.available_read = if s.pos_read ≤ s.pos_write
      then s.pos_write - s.pos_read
      else s.capacity + s.pos_write - s.pos_read := wrapDiff_eq hr hw
  obtain ⟨-, hpr, hpc, hpw⟩ := try_write_fields hlen
  have hblen' := try_write_buffer_length ⟨hbl, hcap, hr, hw⟩ hlen
  have havail' := available_read_after_write ⟨hbl, hcap, hr, hw⟩ hlen
  have hrl : (readable s).length = s.available_read :=
    readable_length ⟨hbl, hcap, hr, hw⟩
  have hbget : ∀ j, j < s.capacity → ((s.try_write data).2.buffer)[j]? =
      (if (s.capacity + j - s.pos_write) % s.capacity < data.length
       then data[(s.capacity + j - s.pos_write) % s.capacity]?
       else s.buffer[j]?) :=
    fun j hj => try_write_buffer_getElem ⟨hbl, hcap, hr, hw⟩ hlen hj
  have hdj : ∀ j, j < s.capacity →
      (s.capacity + j - s.pos_write) % s.capacity =
        (if s.pos_write ≤ j then j - s.pos_write
         else s.capacity + j - s.pos_write) :=
    fun j hj => wrapDiff_eq hw hj
  set a := s.available_read with ha
  apply List.ext_getElem?
  intro i
  rcases Nat.lt_or_ge i (a + data.length) with hi | hi
  case inr =>
    rw [List.getElem?_eq_none
        (by rw [readable_length ⟨by rw [hblen', hpc], by rw [hpc]; exact hcap,
          by rw [hpr, hpc]; exact hr,
          by rw [hpw, hpc]; exact Nat.mod_lt _ hcap⟩, havail']; omega),
      List.getElem?_eq_none (by rw [List.length_append, hrl]; omega)]
  case inl =>
    have h1 : (readable (s.try_write data).2)[i]? =
        ((s.try_write data).2.buffer.drop s.pos_read ++
          (s.try_write data).2.buffer.take s.pos_read)[i]? := by
      unfold readable
      rw [havail', hpr, List.getElem?_take_of_lt hi]
    have h2 : (readable s ++ data)[i]? =
        (if i < a then (readable s)[i]? else data[i - a]?) := by
      rw [List.getElem?_append, hrl]
    have h3 : i < a → (readable s)[i]? =
        (s.buffer.drop s.pos_read ++ s.buffer.take s.pos_read)[i]? := by
      intro hia
      unfold readable
      rw [List.getElem?_take_of_lt hia]
    rw [h1, h2, rot_getElem hblen' hr i]
    rcases Nat.lt_or_ge i (s.capacity - s.pos_read) with hz | hz
    · rw [if_pos hz]
      have hj : s.pos_read + i < s.capacity := by omega
      rcases Nat.lt_or_ge i a with hia | hia
      · rw [if_pos hia, h3 hia, rot_getElem hbl hr i, if_pos hz]
        by_cases hrw : s.pos_read ≤ s.pos_write
        · have haa : a = s.pos_write - s.pos_read := by rw [havm, if_pos hrw]
          have hde : (s.capacity + (s.pos_read + i) - s.pos_write) %
              s.capacity = s.capacity + (s.pos_read + i) - s.pos_write := by
            rw [hdj _ hj, if_neg (by omega)]
          rw [hbget _ hj, hde, if_neg (by omega)]
        · have haa : a = s.capacity + s.pos_write - s.pos_read := by
            rw [havm, if_neg hrw]
          have hde : (s.capacity + (s.pos_read + i) - s.pos_write) %
              s.capacity = s.pos_read + i - s.pos_write := by
            rw [hdj _ hj, if_pos (by omega)]
          rw [hbget _ hj, hde, if_neg (by omega)]
      · rw [if_neg (by omega)]
        by_cases hrw : s.pos_read ≤ s.pos_write
        · have haa : a = s.pos_write - s.pos_read := by rw [havm, if_pos hrw]
          have hde : (s.capacity + (s.pos_read + i) - s.pos_write) %
              s.capacity = i - a := by
            rw [hdj _ hj, if_pos (by omega)]
            omega
          rw [hbget _ hj, hde, if_pos (by omega)]
        · have haa : a = s.capacity + s.pos_write - s.pos_read := by
            rw [havm, if_neg hrw]
          exact absurd hia (by omega)
    · rw [if_neg (by omega), if_pos (by omega)]
      have hj : i - (s.capacity - s.pos_read) < s.capacity := by omega
      rcases Nat.lt_or_ge i a with hia | hia
      · rw [if_pos hia, h3 hia, rot_getElem hbl hr i, if_neg (by omega),
          if_pos (by omega)]
        by_cases hrw : s.pos_read ≤ s.pos_write
        · have haa : a = s.pos_write - s.pos_read := by rw [havm, if_pos hrw]
          exact absurd hz (by omega)
        · have haa : a = s.capacity + s.pos_write - s.pos_read := by
            rw [havm, if_neg hrw]
          have hde : (s.capacity + (i - (s.capacity - s.pos_read)) -
              s.pos_write) % s.capacity =
                s.capacity + (i - (s.capacity - s.pos_read)) - s.pos_write := by
            rw [hdj _ hj, if_neg (by omega)]
          rw [hbget _ hj, hde, if_neg (by omega)]
      · rw [if_neg (by omega)]
        by_cases hrw : s.pos_read ≤ s.pos_write
        · have haa : a = s.pos_write - s.pos_read := by rw [havm, if_pos hrw]
          have hde : (s.capacity + (i - (s.capacity - s.pos_read)) -
              s.pos_write) % s.capacity = i - a := by
            rw [hdj _ hj, if_neg (by omega)]
            omega
          rw [hbget _ hj, hde, if_pos (by omega)]
        · have haa : a = s.capacity + s.pos_write - s.pos_read := by
            rw [havm, if_neg hrw]
          have hde : (s.capacity + (i - (s.capacity - s.pos_read)) -
              s.pos_write) % s.capacity = i - a := by
            rw [hdj _ hj, if_pos (by omega)]
            omega
          rw [hbget _ hj, hde, if_pos (by omega)]

end Spsc

/-- Claim C4: the SPSC byte ring, operated sequentially, is a FIFO with
two-phase wrap-around copies.  Concretely (effective capacity 8): writing
bytes 1..8, reading 4, writing 9..12 (a two-phase copy: the consecutive
write length is 1), then reading 8 (a two-phase copy: the consecutive read
length is 5) succeeds at every step and the reads concatenate to 1..12.
In general a `try_write` of any admissible length (one or two copy phases
alike) succeeds and appends exactly its bytes to the readable content, and
a `try_peek` of any admissible length returns exactly the first `n`
readable bytes. -/
theorem c4_spsc_fifo :
    ((Spsc.try_write [1, 2, 3, 4, 5, 6, 7, 8] (Spsc.init 8)).1 = true ∧
      (Spsc.try_read 4 c4s1).1 = some [1, 2, 3, 4] ∧
      (Spsc.try_write [9, 10, 11, 12] c4s2).1 = true ∧
      c4s2.consecutive_write_length = 1 ∧
      (Spsc.try_read 8 c4s3).1 = some [5, 6, 7, 8, 9, 10, 11, 12] ∧
      c4s3.consecutive_read_length = 5 ∧
      [1, 2, 3, 4] ++ [5, 6, 7, 8, 9, 10, 11, 12] =
        [1, 2, 3, 4, 5, 6, 7, 8, 9, 10, 11, 12] ∧
      (Spsc.try_read 8 c4s3).2.available_read = 0) ∧
    (∀ (s : Spsc) (data : List Nat), s.Wf →
      data.length ≤ s.available_write →
      (s.try_write data).1 = true ∧
      Spsc.readable (s.try_write data).2 = Spsc.readable s ++ data) ∧
    (∀ (s : Spsc) (n : Nat), s.Wf → n ≤ s.available_read →
      s.try_peek n = some ((Spsc.readable s).take n)) := by
  refine ⟨by decide, ?_, ?_⟩
  · intro s data hwf hlen
    exact ⟨(Spsc.try_write_fields hlen).1, Spsc.readable_write hwf hlen⟩
  · intro s n hwf hn
    exact Spsc.try_peek_eq hwf hn

/-- Witness for C4 at a concrete input: the wrap-around write of 9..12
into the partially drained ring appends exactly those bytes to the
readable content, and the wrap-around 8-byte peek returns the full
readable content. -/
theorem c4_spsc_fifo_witness :
    Spsc.readable (Spsc.try_write [9, 10, 11, 12] c4s2).2 =
      Spsc.readable c4s2 ++ [9, 10, 11, 12] ∧
    Spsc.try_peek 8 c4s3 = some ((Spsc.readable c4s3).take 8) :=
  ⟨(c4_spsc_fifo.2.1 c4s2 [9, 10, 11, 12] (by decide) (by decide)).2,
   c4_spsc_fifo.2.2 c4s3 8 (by decide) (by decide)⟩

/-- Witness for C5 at a concrete input: `V = 60`, alignment `2 ^ 2`,
word `w = 0x1122334455667788`, tag value `v = 123456789`; all five parts
of the claim evaluate as stated (tag width 6, period 64). -/
theorem c5_tagged_ptr_witness :
    TaggedPtr.set_tag 60 2 (TaggedPtr.get_tag 60 2 0x1122334455667788)
      0x1122334455667788 = 0x1122334455667788 ∧
    TaggedPtr.get_tag 60 2 (TaggedPtr.set_tag 60 2 123456789
      0x1122334455667788) = 123456789 % 2 ^ 6 :=
  ⟨(c5_tagged_ptr 60 2 123456789 0x1122334455667788 (by decide) (by decide)
      (by decide)).1,
   (c5_tagged_ptr 60 2 123456789 0x1122334455667788 (by decide) (by decide)
      (by decide)).2.2.2.1⟩

/-- Witness for C8 at a concrete input: the capacity-5 queue holding four
elements is well-formed, not at capacity, and shrinking it produces
capacity 4 with the same contents; resizing to 3 fails because 3 < 4. -/
theorem c8_ring_queue_resize_witness :
    (c8q4.try_resize_buffer 3).1 = false ∧
    c8q4.try_resize_buffer 5 = (true, c8q4) ∧
    c8q4.shrink_to_fit.capacity = c8q4.size :=
  ⟨(c8_ring_queue_resize.1 c8q4 3).mpr (by decide),
   c8_ring_queue_resize.2.1 c8q4 5 (by decide) (by decide),
   (c8_ring_queue_resize.2.2.1 c8q4 (by decide) (by decide)).1⟩
